import Mathlib

/-!
Verification development for the stripy triangulation library.

The repository excerpt contains only packaging material and two demo
notebooks; the triangulation engine itself (predicates, mesh, locator,
derivative estimator, smoothing solver, interpolator) is specified in
the design document but its implementation files are not part of the
excerpt.  Following the specification, the engine is modelled here as a
shallow embedding over an arbitrary linearly ordered (commutative) ring
or field: exact arithmetic stands in for the floating point of the
original, geometric predicates are sign tests of determinants, and the
incremental build is an explicit fuel-bounded loop.
-/

namespace Stripy

/-- Modelled from the spec: a 3-D point (a vector on or near the unit
sphere; the predicates only use common-norm directions).  The missing
source stores coordinates as floating-point triples; here they live in
an arbitrary linearly ordered commutative ring. -/
structure Pt3 (K : Type) where
  x : K
  y : K
  z : K
deriving DecidableEq, Repr

/-- A triangle of the mesh: three vertex indices into the point array,
kept in counter-clockwise orientation as seen from outside the sphere. -/
structure Tri where
  a : ℕ
  b : ℕ
  c : ℕ
deriving DecidableEq, Repr

variable {K : Type} [LinearOrderedCommRing K]

/-- Componentwise difference of two points. -/
def psub (p q : Pt3 K) : Pt3 K := ⟨p.x - q.x, p.y - q.y, p.z - q.z⟩

/-- Modelled from the spec: the triple-product / orientation determinant
used by GeometricPredicates for spherical triples. -/
def det3 (p q r : Pt3 K) : K :=
  p.x * (q.y * r.z - q.z * r.y) - p.y * (q.x * r.z - q.z * r.x)
    + p.z * (q.x * r.y - q.y * r.x)

/-- Squared Euclidean distance, used for the duplicate-point tolerance test. -/
def dist2 (p q : Pt3 K) : K :=
  (p.x - q.x) ^ 2 + (p.y - q.y) ^ 2 + (p.z - q.z) ^ 2

/-- Vertex lookup with a default; triangle indices are kept in range by
construction. -/
def getPt (pts : List (Pt3 K)) (i : ℕ) : Pt3 K := pts.getD i ⟨0, 0, 0⟩

/-- Modelled from the spec: the spherical in-circumscribing-cap predicate of
GeometricPredicates.  For common-norm points with `(a,b,c)` counter-clockwise
seen from outside, `p` lies strictly inside the cap cut by the plane of
`a`, `b`, `c` exactly when it is strictly on the outer side of that plane. -/
def inCapP (a b c p : Pt3 K) : Prop :=
  0 < det3 (psub b a) (psub c a) (psub p a)

instance (a b c p : Pt3 K) : Decidable (inCapP a b c p) := by
  unfold inCapP; infer_instance

/-- Membership of a query direction in the closed cone of a spherical
triangle: on or to the left of each of the three bounding great circles,
and strictly inside at least one (which rules out the zero vector). -/
def containsP (pts : List (Pt3 K)) (t : Tri) (p : Pt3 K) : Prop :=
  0 ≤ det3 (getPt pts t.a) (getPt pts t.b) p ∧
  0 ≤ det3 (getPt pts t.b) (getPt pts t.c) p ∧
  0 ≤ det3 (getPt pts t.c) (getPt pts t.a) p ∧
  (0 < det3 (getPt pts t.a) (getPt pts t.b) p ∨
   0 < det3 (getPt pts t.b) (getPt pts t.c) p ∨
   0 < det3 (getPt pts t.c) (getPt pts t.a) p)

instance (pts : List (Pt3 K)) (t : Tri) (p : Pt3 K) : Decidable (containsP pts t p) := by
  unfold containsP; infer_instance

/-- Duplicate test of the insertion routine: some existing vertex lies
within the configured squared tolerance of the incoming point. -/
def existsDup (tol : K) (p : Pt3 K) : List (Pt3 K) → Bool
  | [] => false
  | q :: qs => if dist2 p q ≤ tol then true else existsDup tol p qs

/-- Check that no candidate vertex with index below the bound lies strictly
inside the circumscribing cap of triangle `t` (vertices of `t` excepted). -/
def capFreeUpTo (pts : List (Pt3 K)) (t : Tri) : ℕ → Bool
  | 0 => true
  | k + 1 =>
    if k = t.a ∨ k = t.b ∨ k = t.c then capFreeUpTo pts t k
    else if inCapP (getPt pts t.a) (getPt pts t.b) (getPt pts t.c) (getPt pts k) then false
    else capFreeUpTo pts t k

/-- Modelled from the spec: the global Delaunay property of the Mesh data
model — no point of the set lies strictly inside the circumscribing cap of
any triangle not containing it as a vertex. -/
def delaunayB (pts : List (Pt3 K)) : List Tri → Bool
  | [] => true
  | t :: ts => capFreeUpTo pts t pts.length && delaunayB pts ts

/-- An undirected edge, normalised with the smaller index first. -/
def normEdge (i j : ℕ) : ℕ × ℕ := if i ≤ j then (i, j) else (j, i)

/-- The three undirected edges of a triangle. -/
def edgesOf (t : Tri) : List (ℕ × ℕ) :=
  [normEdge t.a t.b, normEdge t.b t.c, normEdge t.c t.a]

/-- All triangle edges of a mesh, with multiplicity. -/
def edgeList : List Tri → List (ℕ × ℕ)
  | [] => []
  | t :: ts => edgesOf t ++ edgeList ts

/-- Occurrence count of an element in a list. -/
def cnt {A : Type} [DecidableEq A] (a : A) : List A → ℕ
  | [] => 0
  | b :: l => (if b = a then 1 else 0) + cnt a l

/-- Structural invariant of a closed spherical mesh: every edge is shared
by exactly two triangles.  Checked after every insertion; a violation is
an internal invariant violation and the insertion is rejected. -/
def properB (tris : List Tri) : Bool :=
  (edgeList tris).all fun e => cnt e (edgeList tris) = 2

/-- Number of distinct undirected edges of the mesh. -/
def edgeCount (tris : List Tri) : ℕ := (edgeList tris).dedup.length

/-- Accumulate the vertices adjacent to `v` over a triangle list. -/
def nbrAcc (v : ℕ) : List Tri → List ℕ
  | [] => []
  | t :: ts =>
    if v = t.a then t.b :: t.c :: nbrAcc v ts
    else if v = t.b then t.c :: t.a :: nbrAcc v ts
    else if v = t.c then t.a :: t.b :: nbrAcc v ts
    else nbrAcc v ts

/-- Modelled from the spec: `neighbors(vertexId)` — the link of vertices
incident to the given vertex.  (The missing source returns them in angular
order; the claims below only use membership, which is order-insensitive.) -/
def neighborsOf (tris : List Tri) (v : ℕ) : List ℕ := (nbrAcc v tris).dedup

/-- If the directed edge `(u, v)` occurs in `t`, return the third vertex. -/
def oppositeIn (t : Tri) (u v : ℕ) : Option ℕ :=
  if t.a = u ∧ t.b = v then some t.c
  else if t.b = u ∧ t.c = v then some t.a
  else if t.c = u ∧ t.a = v then some t.b
  else none

/-- Try to flip across the directed edge `(u, v)` of a triangle with third
vertex `w1`: if `t2` carries the reversed edge and its opposite vertex lies
strictly inside the cap of `(u, v, w1)`, produce the two flipped triangles
with the new diagonal `w1 w2`. -/
def tryEdge (pts : List (Pt3 K)) (u v w1 : ℕ) (t2 : Tri) : Option (Tri × Tri) :=
  match oppositeIn t2 v u with
  | some w2 =>
    if inCapP (getPt pts u) (getPt pts v) (getPt pts w1) (getPt pts w2) then
      some (⟨u, w2, w1⟩, ⟨v, w1, w2⟩)
    else none
  | none => none

/-- Modelled from the spec: the local Delaunay edge flip — if two adjacent
triangles violate the in-cap test across their shared edge, replace the
shared edge by the opposite diagonal. -/
def flipPair (pts : List (Pt3 K)) (t1 t2 : Tri) : Option (Tri × Tri) :=
  match tryEdge pts t1.a t1.b t1.c t2 with
  | some r => some r
  | none =>
    match tryEdge pts t1.b t1.c t1.a t2 with
    | some r => some r
    | none => tryEdge pts t1.c t1.a t1.b t2

/-- Search the list for a partner of `t1` to flip with; on success return
the first flipped triangle together with the list in which the partner has
been replaced by the second flipped triangle. -/
def flipWith (pts : List (Pt3 K)) (t1 : Tri) : List Tri → Option (Tri × List Tri)
  | [] => none
  | t2 :: ts =>
    match flipPair pts t1 t2 with
    | some (n1, n2) => some (n1, n2 :: ts)
    | none =>
      match flipWith pts t1 ts with
      | some (n1, ts') => some (n1, t2 :: ts')
      | none => none

/-- One pass over the triangle list looking for a flippable adjacent pair;
returns the triangle list after performing the first flip found. -/
def flipScan (pts : List (Pt3 K)) : List Tri → Option (List Tri)
  | [] => none
  | t :: ts =>
    match flipWith pts t ts with
    | some (n1, ts') => some (n1 :: ts')
    | none =>
      match flipScan pts ts with
      | some ts' => some (t :: ts')
      | none => none

/-- Modelled from the spec: the cascading flip loop restoring the Delaunay
invariant after an insertion.  Local flips are performed until the global
Delaunay check passes; the fuel bound makes the cascade a bounded loop, and
exhaustion (or absence of a flippable pair while the invariant is still
violated) rejects the insertion as an internal invariant violation. -/
def restore (pts : List (Pt3 K)) : ℕ → List Tri → Option (List Tri)
  | 0, _ => none
  | fuel + 1, tris =>
    if delaunayB pts tris then some tris
    else
      match flipScan pts tris with
      | some tris' => restore pts fuel tris'
      | none => none

/-- Find the first triangle whose closed cone contains `p` and split it
into three triangles around the new vertex index `n`. -/
def findTriSplit (pts : List (Pt3 K)) (p : Pt3 K) (n : ℕ) : List Tri → Option (List Tri)
  | [] => none
  | t :: ts =>
    if containsP pts t p then
      some (⟨t.a, t.b, n⟩ :: ⟨t.b, t.c, n⟩ :: ⟨t.c, t.a, n⟩ :: ts)
    else
      match findTriSplit pts p n ts with
      | some ts' => some (t :: ts')
      | none => none

/-- Degeneracy test for the spherical bootstrap: the first four points are
coplanar through the origin (every triple has vanishing triple product), so
no initial simplex can be formed. -/
def coplanarZero (q0 q1 q2 q3 : Pt3 K) : Prop :=
  det3 q0 q1 q2 = 0 ∧ det3 q0 q1 q3 = 0 ∧ det3 q0 q2 q3 = 0 ∧ det3 q1 q2 q3 = 0

instance (q0 q1 q2 q3 : Pt3 K) : Decidable (coplanarZero q0 q1 q2 q3) := by
  unfold coplanarZero; infer_instance

/-- Build one face of the bootstrap tetrahedron, oriented counter-clockwise
as seen from outside (positive triple product). -/
def mkFace (pts : List (Pt3 K)) (i j k : ℕ) : Tri :=
  if 0 < det3 (getPt pts i) (getPt pts j) (getPt pts k) then ⟨i, j, k⟩ else ⟨i, k, j⟩

/-- The four oriented faces of the bootstrap tetrahedron on the first four
points. -/
def seedTris (pts : List (Pt3 K)) : List Tri :=
  [mkFace pts 0 1 2, mkFace pts 0 1 3, mkFace pts 0 2 3, mkFace pts 1 2 3]

/-- Modelled from the spec: the error taxonomy of mesh construction —
duplicate point within tolerance, degenerate bootstrap input, and internal
invariant violation (the fatal `LocationError` class). -/
inductive InsErr where
  | duplicate
  | degenerate
  | internal
deriving DecidableEq, Repr

instance {ε α : Type} [DecidableEq ε] [DecidableEq α] : DecidableEq (Except ε α) :=
  fun u v =>
    match u, v with
    | .ok a, .ok b =>
      if h : a = b then isTrue (by rw [h]) else isFalse (by intro hh; cases hh; exact h rfl)
    | .error a, .error b =>
      if h : a = b then isTrue (by rw [h]) else isFalse (by intro hh; cases hh; exact h rfl)
    | .ok _, .error _ => isFalse (by intro hh; cases hh)
    | .error _, .ok _ => isFalse (by intro hh; cases hh)

/-- Modelled from the spec: the TriangulationMesh state — the point array,
the triangle arena and the construction-time duplicate tolerance.  An empty
triangle list is the UNBUILT/BUILDING bootstrap phase, a non-empty one the
BUILT phase. -/
structure TriState (K : Type) where
  tol : K
  pts : List (Pt3 K)
  tris : List Tri
deriving DecidableEq, Repr

/-- Fuel for the flip cascade, quadratic in the mesh size. -/
def restoreFuel (tris : List Tri) : ℕ := tris.length * tris.length + 9

/-- Run the flip cascade and the structural invariant check that finish an
insertion; any failure rejects the insertion. -/
def finalize (tol : K) (pts : List (Pt3 K)) (tris : List Tri) :
    Except InsErr (TriState K) :=
  match restore pts (restoreFuel tris) tris with
  | some tris' =>
    if properB tris' then .ok ⟨tol, pts, tris'⟩ else .error .internal
  | none => .error .internal

/-- Modelled from the spec: `insert(point)` of TriangulationMesh in
spherical mode.  Rejects duplicates within tolerance; buffers the first
three points; seeds the tetrahedron at the fourth point unless the four are
coplanar through the origin; afterwards locates the containing triangle,
splits it into three, and runs the Delaunay-restoring flip cascade.  Any
internal invariant violation rejects the whole insertion. -/
def insert (st : TriState K) (p : Pt3 K) : Except InsErr (TriState K) :=
  if existsDup st.tol p st.pts then .error .duplicate
  else
    match st.tris with
    | [] =>
      match st.pts with
      | [q0, q1, q2] =>
        if coplanarZero q0 q1 q2 p then .error .degenerate
        else finalize st.tol (st.pts ++ [p]) (seedTris (st.pts ++ [p]))
      | _ =>
        if st.pts.length < 3 then .ok ⟨st.tol, st.pts ++ [p], []⟩
        else .error .internal
    | _ :: _ =>
      match findTriSplit st.pts p st.pts.length st.tris with
      | some tris' => finalize st.tol (st.pts ++ [p]) tris'
      | none => .error .internal

/-- Sequentially insert a list of points, stopping at the first error. -/
def buildList (st : TriState K) : List (Pt3 K) → Except InsErr (TriState K)
  | [] => .ok st
  | p :: ps =>
    match insert st p with
    | .ok st' => buildList st' ps
    | .error e => .error e

/-- Build a mesh from scratch by sequential insertion. -/
def buildE (tol : K) (ps : List (Pt3 K)) : Except InsErr (TriState K) :=
  buildList ⟨tol, [], []⟩ ps

/-- Modelled from the spec: the overall mesh construction — sequential
insertion of the point set; the result is a BUILT mesh or nothing. -/
def buildMesh (tol : K) (ps : List (Pt3 K)) : Option (TriState K) :=
  match buildE tol ps with
  | .ok st => if st.tris.isEmpty then none else some st
  | .error _ => none

/-- The caller-observable mesh after attempting an insertion: the new mesh
on success, the untouched pre-insertion mesh when the insertion was
rejected. -/
def insertUpd (st : TriState K) (p : Pt3 K) : TriState K :=
  match insert st p with
  | .ok st' => st'
  | .error _ => st

/-- The size/structure invariant maintained by insertion: in the bootstrap
phase at most three buffered points and no triangles; once BUILT, at least
four points, triangle count `2 N - 4` (stated additively), and every edge
shared by exactly two triangles. -/
def meshInv (st : TriState K) : Prop :=
  (st.tris = [] ∧ st.pts.length ≤ 3) ∨
  (st.tris ≠ [] ∧ 4 ≤ st.pts.length ∧ st.tris.length + 4 = 2 * st.pts.length ∧
    properB st.tris = true)

/-- Concrete witness input: four integer vectors of common norm 3 whose
convex hull strictly contains the origin. -/
def wpts : List (Pt3 ℤ) := [⟨3, 0, 0⟩, ⟨0, 3, 0⟩, ⟨0, 0, 3⟩, ⟨-2, -2, -1⟩]

/-- The mesh produced by building `wpts`: the four oriented faces of the
tetrahedron. -/
def wstate : TriState ℤ :=
  ⟨0, wpts, [⟨0, 1, 2⟩, ⟨0, 3, 1⟩, ⟨0, 2, 3⟩, ⟨1, 3, 2⟩]⟩

/-! ### The planar mode

Modelled from the spec: planar and spherical mode share the flip/restore
algorithm but use mode-specific predicates; the planar bootstrap seeds a
single triangle from the first three points and fails with
`DegenerateInputError` when they are collinear.  Hull extension for points
outside the planar convex hull is not modelled (such insertions are
rejected as internal); no claim below depends on it. -/

/-- A planar point. -/
structure Pt2 (K : Type) where
  x : K
  y : K
deriving DecidableEq, Repr

/-- Modelled from the spec: the planar orientation determinant of
GeometricPredicates (LEFT/RIGHT/COLLINEAR as sign). -/
def orient2 (p q r : Pt2 K) : K :=
  (q.x - p.x) * (r.y - p.y) - (q.y - p.y) * (r.x - p.x)

/-- Planar squared distance for the duplicate tolerance test. -/
def dist2P (p q : Pt2 K) : K := (p.x - q.x) ^ 2 + (p.y - q.y) ^ 2

/-- Planar duplicate test. -/
def existsDup2 (tol : K) (p : Pt2 K) : List (Pt2 K) → Bool
  | [] => false
  | q :: qs => if dist2P p q ≤ tol then true else existsDup2 tol p qs

/-- Planar vertex lookup with a default. -/
def getPt2 (pts : List (Pt2 K)) (i : ℕ) : Pt2 K := pts.getD i ⟨0, 0⟩

/-- Modelled from the spec: the planar in-circumcircle predicate, as the
sign of the lifted 3×3 determinant for a counter-clockwise triangle. -/
def inCircleP (a b c p : Pt2 K) : Prop :=
  0 < det3
    ⟨a.x - p.x, a.y - p.y, (a.x - p.x) * (a.x + p.x) + (a.y - p.y) * (a.y + p.y)⟩
    ⟨b.x - p.x, b.y - p.y, (b.x - p.x) * (b.x + p.x) + (b.y - p.y) * (b.y + p.y)⟩
    ⟨c.x - p.x, c.y - p.y, (c.x - p.x) * (c.x + p.x) + (c.y - p.y) * (c.y + p.y)⟩

instance (a b c p : Pt2 K) : Decidable (inCircleP a b c p) := by
  unfold inCircleP; infer_instance

/-- Closed containment of a query point in a planar triangle. -/
def contains2P (pts : List (Pt2 K)) (t : Tri) (p : Pt2 K) : Prop :=
  0 ≤ orient2 (getPt2 pts t.a) (getPt2 pts t.b) p ∧
  0 ≤ orient2 (getPt2 pts t.b) (getPt2 pts t.c) p ∧
  0 ≤ orient2 (getPt2 pts t.c) (getPt2 pts t.a) p ∧
  (0 < orient2 (getPt2 pts t.a) (getPt2 pts t.b) p ∨
   0 < orient2 (getPt2 pts t.b) (getPt2 pts t.c) p ∨
   0 < orient2 (getPt2 pts t.c) (getPt2 pts t.a) p)

instance (pts : List (Pt2 K)) (t : Tri) (p : Pt2 K) : Decidable (contains2P pts t p) := by
  unfold contains2P; infer_instance

/-- Planar analogue of `capFreeUpTo` with the in-circumcircle predicate. -/
def circleFreeUpTo (pts : List (Pt2 K)) (t : Tri) : ℕ → Bool
  | 0 => true
  | k + 1 =>
    if k = t.a ∨ k = t.b ∨ k = t.c then circleFreeUpTo pts t k
    else if inCircleP (getPt2 pts t.a) (getPt2 pts t.b) (getPt2 pts t.c) (getPt2 pts k) then
      false
    else circleFreeUpTo pts t k

/-- The planar global Delaunay check. -/
def delaunay2B (pts : List (Pt2 K)) : List Tri → Bool
  | [] => true
  | t :: ts => circleFreeUpTo pts t pts.length && delaunay2B pts ts

/-- Planar edge-flip candidate across the directed edge `(u, v)`. -/
def tryEdge2 (pts : List (Pt2 K)) (u v w1 : ℕ) (t2 : Tri) : Option (Tri × Tri) :=
  match oppositeIn t2 v u with
  | some w2 =>
    if inCircleP (getPt2 pts u) (getPt2 pts v) (getPt2 pts w1) (getPt2 pts w2) then
      some (⟨u, w2, w1⟩, ⟨v, w1, w2⟩)
    else none
  | none => none

/-- Planar flip of an adjacent violating pair. -/
def flipPair2 (pts : List (Pt2 K)) (t1 t2 : Tri) : Option (Tri × Tri) :=
  match tryEdge2 pts t1.a t1.b t1.c t2 with
  | some r => some r
  | none =>
    match tryEdge2 pts t1.b t1.c t1.a t2 with
    | some r => some r
    | none => tryEdge2 pts t1.c t1.a t1.b t2

/-- Planar partner search for a flip. -/
def flipWith2 (pts : List (Pt2 K)) (t1 : Tri) : List Tri → Option (Tri × List Tri)
  | [] => none
  | t2 :: ts =>
    match flipPair2 pts t1 t2 with
    | some (n1, n2) => some (n1, n2 :: ts)
    | none =>
      match flipWith2 pts t1 ts with
      | some (n1, ts') => some (n1, t2 :: ts')
      | none => none

/-- One planar flip pass. -/
def flipScan2 (pts : List (Pt2 K)) : List Tri → Option (List Tri)
  | [] => none
  | t :: ts =>
    match flipWith2 pts t ts with
    | some (n1, ts') => some (n1 :: ts')
    | none =>
      match flipScan2 pts ts with
      | some ts' => some (t :: ts')
      | none => none

/-- The planar Delaunay-restoring flip cascade. -/
def restore2 (pts : List (Pt2 K)) : ℕ → List Tri → Option (List Tri)
  | 0, _ => none
  | fuel + 1, tris =>
    if delaunay2B pts tris then some tris
    else
      match flipScan2 pts tris with
      | some tris' => restore2 pts fuel tris'
      | none => none

/-- Planar split of the first containing triangle. -/
def findTriSplit2 (pts : List (Pt2 K)) (p : Pt2 K) (n : ℕ) : List Tri → Option (List Tri)
  | [] => none
  | t :: ts =>
    if contains2P pts t p then
      some (⟨t.a, t.b, n⟩ :: ⟨t.b, t.c, n⟩ :: ⟨t.c, t.a, n⟩ :: ts)
    else
      match findTriSplit2 pts p n ts with
      | some ts' => some (t :: ts')
      | none => none

/-- Modelled from the spec: the planar TriangulationMesh state. -/
structure PlState (K : Type) where
  tol : K
  pts : List (Pt2 K)
  tris : List Tri
deriving DecidableEq, Repr

/-- Planar insertion epilogue: flip cascade with bounded fuel. -/
def finalize2 (tol : K) (pts : List (Pt2 K)) (tris : List Tri) :
    Except InsErr (PlState K) :=
  match restore2 pts (restoreFuel tris) tris with
  | some tris' => .ok ⟨tol, pts, tris'⟩
  | none => .error .internal

/-- Modelled from the spec: `insert(point)` of TriangulationMesh in planar
mode — duplicate rejection, two buffered bootstrap points, a degenerate
error when the first three points are collinear, then split-and-flip
insertion (hull extension not modelled). -/
def insert2 (st : PlState K) (p : Pt2 K) : Except InsErr (PlState K) :=
  if existsDup2 st.tol p st.pts then .error .duplicate
  else
    match st.tris with
    | [] =>
      match st.pts with
      | [q0, q1] =>
        if orient2 q0 q1 p = 0 then .error .degenerate
        else
          finalize2 st.tol (st.pts ++ [p])
            [if 0 < orient2 q0 q1 p then ⟨0, 1, 2⟩ else ⟨0, 2, 1⟩]
      | _ =>
        if st.pts.length < 2 then .ok ⟨st.tol, st.pts ++ [p], []⟩
        else .error .internal
    | _ :: _ =>
      match findTriSplit2 st.pts p st.pts.length st.tris with
      | some tris' => finalize2 st.tol (st.pts ++ [p]) tris'
      | none => .error .internal

/-- Sequentially insert a list of planar points, stopping at the first
error. -/
def buildList2 (st : PlState K) : List (Pt2 K) → Except InsErr (PlState K)
  | [] => .ok st
  | p :: ps =>
    match insert2 st p with
    | .ok st' => buildList2 st' ps
    | .error e => .error e

/-- Build a planar mesh from scratch by sequential insertion. -/
def buildE2 (tol : K) (ps : List (Pt2 K)) : Except InsErr (PlState K) :=
  buildList2 ⟨tol, [], []⟩ ps

/-- Modelled from the spec: the overall planar mesh construction —
sequential insertion of the point set; the result is a BUILT mesh or
nothing. -/
def buildMesh2 (tol : K) (ps : List (Pt2 K)) : Option (PlState K) :=
  match buildE2 tol ps with
  | .ok st => if st.tris.isEmpty then none else some st
  | .error _ => none

/-- Concrete planar witness input: the triangle `(0,0), (4,0), (0,4)` and
the interior point `(1,1)`. -/
def wpts2 : List (Pt2 ℤ) := [⟨0, 0⟩, ⟨4, 0⟩, ⟨0, 4⟩, ⟨1, 1⟩]

/-- The planar mesh produced by building `wpts2`: the seed triangle split
at the interior point. -/
def wstate2 : PlState ℤ :=
  ⟨0, wpts2, [⟨0, 1, 3⟩, ⟨1, 2, 3⟩, ⟨2, 0, 3⟩]⟩

/-! ### The numerical operators: locator, evaluator, derivative estimator,
smoothing solver and the lon/lat gradient form.  These require division and
live over a linearly ordered field. -/

variable {F : Type} [LinearOrderedField F]

/-- Dot product of two vectors. -/
def dot3 (u v : Pt3 K) : K := u.x * v.x + u.y * v.y + u.z * v.z

/-- Scan for a vertex whose stored coordinates coincide exactly with the
query point, returning its index. -/
def scanVertex (p : Pt3 K) : List (Pt3 K) → Option ℕ
  | [] => none
  | q :: qs => if q = p then some 0 else (scanVertex p qs).map (· + 1)

/-- Find the first triangle whose closed cone contains the query point. -/
def findTri (pts : List (Pt3 K)) (p : Pt3 K) : List Tri → Option Tri
  | [] => none
  | t :: ts => if containsP pts t p then some t else findTri pts p ts

/-- Modelled from the spec: the result of `locate` — the containing
triangle, or a degenerate result when the query point falls exactly on an
edge or coincides with a vertex. -/
inductive LocRes where
  | vertex (i : ℕ)
  | onEdge (i j : ℕ)
  | inTri (t : Tri)
deriving DecidableEq, Repr

/-- Modelled from the spec: `locate(point)` of the Locator.  A coincident
vertex is reported as the degenerate `vertex` result; otherwise the first
triangle whose closed cone contains the point is found and the result is
classified as interior or exactly-on-an-edge.  (The O(√N) triangle walk of
the missing source is modelled as a scan; the walk is a performance
contract and does not change the result.) -/
def locate (st : TriState F) (p : Pt3 F) : Option LocRes :=
  match scanVertex p st.pts with
  | some i => some (.vertex i)
  | none =>
    match findTri st.pts p st.tris with
    | some t =>
      if det3 (getPt st.pts t.a) (getPt st.pts t.b) p = 0 then some (.onEdge t.a t.b)
      else if det3 (getPt st.pts t.b) (getPt st.pts t.c) p = 0 then some (.onEdge t.b t.c)
      else if det3 (getPt st.pts t.c) (getPt st.pts t.a) p = 0 then some (.onEdge t.c t.a)
      else some (.inTri t)
    | none => none

/-- Cubic Hermite basis: value at the left node. -/
def h00 (t : F) : F := 1 - 3 * t ^ 2 + 2 * t ^ 3

/-- Cubic Hermite basis: value at the right node. -/
def h01 (t : F) : F := 3 * t ^ 2 - 2 * t ^ 3

/-- Cubic Hermite basis: left tangent. -/
def h10 (t : F) : F := t * (1 - t) ^ 2

/-- Cubic Hermite basis: right tangent. -/
def h11 (t : F) : F := t ^ 2 * (t - 1)

/-- Modelled from the spec: the Hermite blend along an edge of the located
triangle, with the tension factor damping the gradient terms (tension 0 is
the pure cubic; large tension suppresses the gradient contribution towards
the nearly-linear blend). -/
def edgeBlend (st : TriState F) (f : List F) (g : List (Pt3 F)) (ten : F)
    (i j : ℕ) (p : Pt3 F) : F :=
  let vi := getPt st.pts i
  let vj := getPt st.pts j
  let e := psub vj vi
  let t := dot3 (psub p vi) e / dot3 e e
  h00 t * f.getD i 0 + h01 t * f.getD j 0 +
    (1 / (1 + ten)) *
      (h10 t * dot3 (g.getD i ⟨0, 0, 0⟩) e + h11 t * dot3 (g.getD j ⟨0, 0, 0⟩) e)

/-- Modelled from the spec: the Hermite-type blend of the three vertex
values and gradients of the located triangle, combined barycentrically;
every gradient correction term carries a mixed product of two distinct
barycentric coordinates, so the blend interpolates at the nodes. -/
def triBlend (st : TriState F) (f : List F) (g : List (Pt3 F)) (ten : F)
    (t : Tri) (p : Pt3 F) : F :=
  let va := getPt st.pts t.a
  let vb := getPt st.pts t.b
  let vc := getPt st.pts t.c
  let ca := det3 p vb vc
  let cb := det3 va p vc
  let cc := det3 va vb p
  let s := ca + cb + cc
  let b1 := ca / s
  let b2 := cb / s
  let b3 := cc / s
  let ga := g.getD t.a ⟨0, 0, 0⟩
  let gb := g.getD t.b ⟨0, 0, 0⟩
  let gc := g.getD t.c ⟨0, 0, 0⟩
  b1 * f.getD t.a 0 + b2 * f.getD t.b 0 + b3 * f.getD t.c 0 +
    (1 / (1 + ten)) *
      (b1 ^ 2 * b2 * dot3 ga (psub vb va) + b1 ^ 2 * b3 * dot3 ga (psub vc va) +
       b2 ^ 2 * b3 * dot3 gb (psub vc vb) + b2 ^ 2 * b1 * dot3 gb (psub va vb) +
       b3 ^ 2 * b1 * dot3 gc (psub va vc) + b3 ^ 2 * b2 * dot3 gc (psub vb vc))

/-- Modelled from the spec: `evaluate(queryPoint, fieldValues, gradients,
tension)` of the Interpolator — locate the query point, then return the
stored value at a coinciding vertex or the Hermite blend on the located
edge or triangle. -/
def evaluate (st : TriState F) (f : List F) (g : List (Pt3 F)) (ten : F)
    (p : Pt3 F) : Option F :=
  match locate st p with
  | some (.vertex i) => some (f.getD i 0)
  | some (.onEdge i j) => some (edgeBlend st f g ten i j p)
  | some (.inTri t) => some (triBlend st f g ten t p)
  | none => none

/-- A symmetric 3×3 matrix (the weighted normal matrix of the local fit). -/
structure Sym3 (K : Type) where
  xx : K
  xy : K
  xz : K
  yy : K
  yz : K
  zz : K
deriving DecidableEq, Repr

/-- Accumulate the weighted least-squares normal matrix and right-hand side
over the neighbor offsets: weight inversely related to squared distance,
residual the field difference to the centre vertex. -/
def gradAccum (pts : List (Pt3 F)) (f : List F) (pv : Pt3 F) (fv : F) :
    List ℕ → Sym3 F × Pt3 F
  | [] => (⟨0, 0, 0, 0, 0, 0⟩, ⟨0, 0, 0⟩)
  | j :: js =>
    let (acc, r) := gradAccum pts f pv fv js
    let d := psub (getPt pts j) pv
    let w := 1 / dist2 (getPt pts j) pv
    let df := f.getD j 0 - fv
    (⟨acc.xx + w * d.x * d.x, acc.xy + w * d.x * d.y, acc.xz + w * d.x * d.z,
      acc.yy + w * d.y * d.y, acc.yz + w * d.y * d.z, acc.zz + w * d.z * d.z⟩,
     ⟨r.x + w * df * d.x, r.y + w * df * d.y, r.z + w * df * d.z⟩)

/-- Solve the symmetric 3×3 normal system by Cramer's rule (the division by
a vanishing determinant yields zero, the junk value of field division). -/
def solveSym3 (A : Sym3 F) (r : Pt3 F) : Pt3 F :=
  let dA := det3 ⟨A.xx, A.xy, A.xz⟩ ⟨A.xy, A.yy, A.yz⟩ ⟨A.xz, A.yz, A.zz⟩
  ⟨det3 ⟨r.x, A.xy, A.xz⟩ ⟨r.y, A.yy, A.yz⟩ ⟨r.z, A.yz, A.zz⟩ / dA,
   det3 ⟨A.xx, r.x, A.xz⟩ ⟨A.xy, r.y, A.yz⟩ ⟨A.xz, r.z, A.zz⟩ / dA,
   det3 ⟨A.xx, A.xy, r.x⟩ ⟨A.xy, A.yy, r.y⟩ ⟨A.xz, A.yz, r.z⟩ / dA⟩

/-- Modelled from the spec: the per-vertex gradient estimate of
DerivativeEstimator — a distance-weighted least-squares fit of the field
differences over the incident neighbors, returning the Cartesian gradient
of the local fit at the vertex. -/
def estimateAt (st : TriState F) (f : List F) (v : ℕ) : Pt3 F :=
  let (acc, r) := gradAccum st.pts f (getPt st.pts v) (f.getD v 0) (neighborsOf st.tris v)
  solveSym3 acc r

/-- Gradient estimates at every vertex. -/
def estimateAll (st : TriState F) (f : List F) : List (Pt3 F) :=
  (List.range st.pts.length).map (estimateAt st f)

/-- Modelled from the spec: `gradient_xyz` of the sTriangulation — the raw
Cartesian derivatives of a vertex field. -/
def gradient_xyz (st : TriState F) (f : List F) : List (Pt3 F) := estimateAll st f

/-- Sum of field values at a list of vertex indices. -/
def sumIdx (fs : List F) : List ℕ → F
  | [] => 0
  | j :: js => fs.getD j 0 + sumIdx fs js

/-- Modelled from the spec: the weighted sum of squared residuals
`Q2 = Σ w_i (f_i' - f_i)^2` used by the SmoothingSolver as the
goodness-of-fit constraint. -/
def q2 : List F → List F → List F → F
  | w :: ws, x :: xs, y :: ys => w * (y - x) ^ 2 + q2 ws xs ys
  | _, _, _ => 0

/-- One value-update step of the smoothing iteration: pull each nodal value
towards the data with its confidence weight against an `sm`-weighted
neighbor average (the linearized-curvature term). -/
def smoothStep (st : TriState F) (f w fs : List F) (sm : F) : List F :=
  (List.range st.pts.length).map fun i =>
    let nb := neighborsOf st.tris i
    let avg := sumIdx fs nb / (nb.length : F)
    (w.getD i 0 * f.getD i 0 + sm * avg) / (w.getD i 0 + sm)

/-- Maximum absolute value of a list. -/
def maxAbs : List F → F
  | [] => 0
  | x :: xs => max |x| (maxAbs xs)

/-- The per-vertex gradient components of a field, flattened. -/
def gradComps (st : TriState F) (fs : List F) : List F :=
  (estimateAll st fs).foldr (fun g acc => g.x :: g.y :: g.z :: acc) []

/-- Largest componentwise change between the gradients of two iterates. -/
def gradDiff (st : TriState F) (fs1 fs2 : List F) : F :=
  maxAbs (List.zipWith (fun a b => |a - b|) (gradComps st fs1) (gradComps st fs2))

/-- The convergence test of the smoothing iteration: the `Q2` statistic of
the new iterate lies in the band `sm(1-smtol) ≤ Q2 ≤ sm(1+smtol)` and the
gradient change from the previous iterate is at most `gstol`. -/
def convergedB (st : TriState F) (f w : List F) (sm smtol gstol : F)
    (fsOld fsNew : List F) : Bool :=
  decide (sm * (1 - smtol) ≤ q2 w f fsNew) &&
  decide (q2 w f fsNew ≤ sm * (1 + smtol)) &&
  decide (gradDiff st fsOld fsNew ≤ gstol)

/-- The bounded smoothing iteration: error indicator 0 on convergence, 1
when the iteration budget is exhausted without convergence. -/
def smoothLoop (st : TriState F) (f w : List F) (sm smtol gstol : F) :
    ℕ → List F → List F × ℤ
  | 0, fs => (fs, 1)
  | fuel + 1, fs =>
    let fs' := smoothStep st f w fs sm
    if convergedB st f w sm smtol gstol fs fs' then (fs', 0)
    else smoothLoop st f w sm smtol gstol fuel fs'

/-- The bounded iteration budget of the smoothing solver. -/
def smoothIterBound : ℕ := 50

/-- Modelled from the spec: `smoothing(f, w, sm, smtol, gstol)` of the
sTriangulation — the curvature-constrained smoother.  It always returns a
triple: the smoothed field, its first derivatives in the x, y and z
directions as three arrays of the field's length, and a numeric error
indicator; non-convergence within the bounded iteration count is reported
through the indicator, never as an exception. -/
def smoothing (st : TriState F) (f w : List F) (sm smtol gstol : F) :
    List F × (List F × List F × List F) × ℤ :=
  let r := smoothLoop st f w sm smtol gstol smoothIterBound f
  let gs := estimateAll st r.1
  (r.1, (gs.map (fun g => g.x), gs.map (fun g => g.y), gs.map (fun g => g.z)), r.2)

/-- A vertex direction stored through the sines and cosines of its
longitude and latitude (the excluded unit-conversion helpers keep the
`lons`/`lats` arrays alongside the Cartesian points). -/
structure AngV (K : Type) where
  clon : K
  slon : K
  clat : K
  slat : K
deriving DecidableEq, Repr

/-- The Cartesian point of an angular vertex. -/
def angXyz (a : AngV K) : Pt3 K :=
  ⟨a.clat * a.clon, a.clat * a.slon, a.slat⟩

/-- A spherical mesh together with the angular form of its vertices. -/
structure LLMesh (K : Type) where
  st : TriState K
  ang : List (AngV K)

/-- Consistency of the angular data with the stored Cartesian points:
matching lengths, each point is the Cartesian image of its angles, and the
sine/cosine pairs lie on the unit circle. -/
def llConsistentL : List (Pt3 K) → List (AngV K) → Prop
  | [], [] => True
  | p :: ps, a :: as =>
    (p = angXyz a ∧ a.clon ^ 2 + a.slon ^ 2 = 1 ∧ a.clat ^ 2 + a.slat ^ 2 = 1) ∧
      llConsistentL ps as
  | _, _ => False

instance : ∀ (ps : List (Pt3 K)) (as : List (AngV K)), Decidable (llConsistentL ps as)
  | [], [] => .isTrue trivial
  | _ :: _, [] => .isFalse id
  | [], _ :: _ => .isFalse id
  | p :: ps, a :: as =>
    have : Decidable (llConsistentL ps as) := instDecidableLlConsistentL ps as
    by unfold llConsistentL; infer_instance

/-- Modelled from the spec: `gradient_lonlat` of the sTriangulation — the
per-vertex gradient in longitude/latitude form, obtained by applying the
angular change of basis (east and north tangent directions) to the
Cartesian gradient estimate at each vertex. -/
def gradient_lonlat (m : LLMesh F) (f : List F) : List (F × F) :=
  (List.range m.st.pts.length).map fun i =>
    let a := m.ang.getD i ⟨1, 0, 1, 0⟩
    let g := estimateAt m.st f i
    (-a.slon * g.x + a.clon * g.y,
     -a.slat * a.clon * g.x - a.slat * a.slon * g.y + a.clat * g.z)

/-- The tangent-plane transformation written purely in terms of the
Cartesian data at a vertex: the lon/lat derivative pair of a Cartesian
gradient `g` at surface point `p`, with `c` the cosine of latitude
(positive away from the poles, `c^2 = p.x^2 + p.y^2`). -/
def lonlatOfXyz (p g : Pt3 F) (c : F) : F × F :=
  ((-p.y * g.x + p.x * g.y) / c,
   (-p.x * p.z * g.x - p.y * p.z * g.y + (p.x ^ 2 + p.y ^ 2) * g.z) / c)

/-- All triangle vertex indices are below the bound (the point count). -/
def trisBound (n : ℕ) (tris : List Tri) : Prop :=
  ∀ t ∈ tris, t.a < n ∧ t.b < n ∧ t.c < n

/-! ### Basic lemmas about the insertion machinery -/

theorem existsDup_iff (tol : K) (p : Pt3 K) :
    ∀ l : List (Pt3 K), existsDup tol p l = true ↔ ∃ q ∈ l, dist2 p q ≤ tol := by
  intro l
  induction l with
  | nil => simp [existsDup]
  | cons q qs ih =>
    unfold existsDup
    by_cases h : dist2 p q ≤ tol
    · simp [h]
    · simp only [if_neg h, ih]
      constructor
      · rintro ⟨r, hr, hle⟩; exact ⟨r, List.mem_cons_of_mem _ hr, hle⟩
      · rintro ⟨r, hr, hle⟩
        rcases List.mem_cons.mp hr with rfl | hr
        · exact absurd hle h
        · exact ⟨r, hr, hle⟩

theorem flipWith_length {pts : List (Pt3 K)} (t1 : Tri) :
    ∀ (l : List Tri) (n1 : Tri) (l' : List Tri),
      flipWith pts t1 l = some (n1, l') → l'.length = l.length := by
  intro l
  induction l with
  | nil => intro n1 l' h; simp [flipWith] at h
  | cons t2 ts ih =>
    intro n1 l' h
    unfold flipWith at h
    cases hfp : flipPair pts t1 t2 with
    | some r =>
      rw [hfp] at h
      obtain ⟨r1, r2⟩ := r
      simp only [Option.some.injEq, Prod.mk.injEq] at h
      obtain ⟨rfl, rfl⟩ := h
      simp
    | none =>
      rw [hfp] at h
      cases hfw : flipWith pts t1 ts with
      | some r =>
        rw [hfw] at h
        obtain ⟨m1, ts'⟩ := r
        simp only [Option.some.injEq, Prod.mk.injEq] at h
        obtain ⟨rfl, rfl⟩ := h
        simpa using ih m1 ts' hfw
      | none => rw [hfw] at h; cases h

theorem flipScan_length {pts : List (Pt3 K)} :
    ∀ (l l' : List Tri), flipScan pts l = some l' → l'.length = l.length := by
  intro l
  induction l with
  | nil => intro l' h; simp [flipScan] at h
  | cons t ts ih =>
    intro l' h
    unfold flipScan at h
    cases hfw : flipWith pts t ts with
    | some r =>
      rw [hfw] at h
      obtain ⟨n1, ts'⟩ := r
      simp only [Option.some.injEq] at h
      subst h
      simpa using flipWith_length t ts n1 ts' hfw
    | none =>
      rw [hfw] at h
      cases hfs : flipScan pts ts with
      | some ts' =>
        rw [hfs] at h
        simp only [Option.some.injEq] at h
        subst h
        simpa using ih ts' hfs
      | none => rw [hfs] at h; cases h

theorem restore_spec {pts : List (Pt3 K)} :
    ∀ (fuel : ℕ) (tris tris' : List Tri), restore pts fuel tris = some tris' →
      delaunayB pts tris' = true ∧ tris'.length = tris.length := by
  intro fuel
  induction fuel with
  | zero => intro tris tris' h; simp [restore] at h
  | succ n ih =>
    intro tris tris' h
    unfold restore at h
    by_cases hd : delaunayB pts tris = true
    · rw [if_pos hd] at h
      cases h
      exact ⟨hd, rfl⟩
    · rw [if_neg hd] at h
      cases hfs : flipScan pts tris with
      | some tris'' =>
        rw [hfs] at h
        obtain ⟨h1, h2⟩ := ih tris'' tris' h
        exact ⟨h1, h2.trans (flipScan_length tris tris'' hfs)⟩
      | none => rw [hfs] at h; cases h

theorem finalize_spec {tol : K} {pts : List (Pt3 K)} {tris : List Tri} {st : TriState K}
    (h : finalize tol pts tris = .ok st) :
    st.tol = tol ∧ st.pts = pts ∧ delaunayB pts st.tris = true ∧
      properB st.tris = true ∧ st.tris.length = tris.length := by
  unfold finalize at h
  split at h
  next tris' hr =>
    split at h
    next hp =>
      cases h
      obtain ⟨h1, h2⟩ := restore_spec _ tris tris' hr
      exact ⟨rfl, rfl, h1, hp, h2⟩
    next => cases h
  next => cases h

theorem findTriSplit_length {pts : List (Pt3 K)} {p : Pt3 K} {n : ℕ} :
    ∀ (l l' : List Tri), findTriSplit pts p n l = some l' →
      l'.length = l.length + 2 := by
  intro l
  induction l with
  | nil => intro l' h; simp [findTriSplit] at h
  | cons t ts ih =>
    intro l' h
    unfold findTriSplit at h
    by_cases hc : containsP pts t p
    · rw [if_pos hc] at h
      cases h
      simp
    · rw [if_neg hc] at h
      cases hfs : findTriSplit pts p n ts with
      | some ts' =>
        rw [hfs] at h
        cases h
        simp only [List.length_cons, ih ts' hfs]
      | none => rw [hfs] at h; cases h

theorem existsDup_false_iff (tol : K) (p : Pt3 K) (l : List (Pt3 K)) :
    existsDup tol p l = false ↔ ∀ q ∈ l, ¬dist2 p q ≤ tol := by
  constructor
  · intro h q hq hle
    have ht : existsDup tol p l = true := (existsDup_iff tol p l).mpr ⟨q, hq, hle⟩
    rw [h] at ht
    cases ht
  · intro h
    cases he : existsDup tol p l with
    | false => rfl
    | true =>
      obtain ⟨q, hq, hle⟩ := (existsDup_iff tol p l).mp he
      exact absurd hle (h q hq)

theorem capFreeUpTo_iff (pts : List (Pt3 K)) (t : Tri) :
    ∀ n : ℕ, capFreeUpTo pts t n = true ↔
      ∀ k < n, ¬(k = t.a ∨ k = t.b ∨ k = t.c) →
        ¬inCapP (getPt pts t.a) (getPt pts t.b) (getPt pts t.c) (getPt pts k) := by
  intro n
  induction n with
  | zero => simp [capFreeUpTo]
  | succ m ih =>
    unfold capFreeUpTo
    by_cases hv : m = t.a ∨ m = t.b ∨ m = t.c
    · rw [if_pos hv, ih]
      constructor
      · intro h k hk hkv
        rcases Nat.lt_succ_iff_lt_or_eq.mp hk with hk' | rfl
        · exact h k hk' hkv
        · exact absurd hv hkv
      · intro h k hk hkv
        exact h k (Nat.lt_succ_of_lt hk) hkv
    · rw [if_neg hv]
      by_cases hc : inCapP (getPt pts t.a) (getPt pts t.b) (getPt pts t.c) (getPt pts m)
      · rw [if_pos hc]
        constructor
        · intro h; cases h
        · intro h
          exact absurd hc (h m (Nat.lt_succ_self m) hv)
      · rw [if_neg hc, ih]
        constructor
        · intro h k hk hkv
          rcases Nat.lt_succ_iff_lt_or_eq.mp hk with hk' | rfl
          · exact h k hk' hkv
          · exact hc
        · intro h k hk hkv
          exact h k (Nat.lt_succ_of_lt hk) hkv

theorem delaunayB_iff (pts : List (Pt3 K)) :
    ∀ tris : List Tri, delaunayB pts tris = true ↔
      ∀ t ∈ tris, ∀ k < pts.length, ¬(k = t.a ∨ k = t.b ∨ k = t.c) →
        ¬inCapP (getPt pts t.a) (getPt pts t.b) (getPt pts t.c) (getPt pts k) := by
  intro tris
  induction tris with
  | nil => simp [delaunayB]
  | cons t ts ih =>
    unfold delaunayB
    rw [Bool.and_eq_true, ih, capFreeUpTo_iff]
    constructor
    · rintro ⟨h1, h2⟩ u hu
      rcases List.mem_cons.mp hu with rfl | hu
      · exact h1
      · exact h2 u hu
    · intro h
      exact ⟨h t (List.mem_cons_self t ts), fun u hu => h u (List.mem_cons_of_mem t hu)⟩

theorem restore_of_delaunay {pts : List (Pt3 K)} {tris : List Tri} {fuel : ℕ}
    (hf : 0 < fuel) (hd : delaunayB pts tris = true) :
    restore pts fuel tris = some tris := by
  cases fuel with
  | zero => omega
  | succ n => unfold restore; rw [if_pos hd]

theorem finalize_of_checks {tol : K} {pts : List (Pt3 K)} {tris : List Tri}
    (hd : delaunayB pts tris = true) (hp : properB tris = true) :
    finalize tol pts tris = .ok ⟨tol, pts, tris⟩ := by
  unfold finalize
  rw [restore_of_delaunay (by unfold restoreFuel; omega) hd]
  dsimp only
  rw [if_pos hp]

theorem insert_buffer {st : TriState K} {p : Pt3 K}
    (h1 : existsDup st.tol p st.pts = false) (h2 : st.tris = [])
    (h3 : st.pts.length < 3) :
    insert st p = .ok ⟨st.tol, st.pts ++ [p], []⟩ := by
  unfold insert
  rw [if_neg (by simp [h1]), h2]
  dsimp only
  rcases hp : st.pts with _ | ⟨a, _ | ⟨b, _ | ⟨c, rest⟩⟩⟩
  · rw [if_pos (by simp)]
  · rw [if_pos (by simp)]
  · rw [if_pos (by simp)]
  · rw [hp] at h3
    rcases rest with _ | ⟨d, rest⟩
    · simp at h3
    · simp at h3
      omega

theorem insert_seed {st : TriState K} {p q0 q1 q2 : Pt3 K}
    (h1 : existsDup st.tol p st.pts = false) (h2 : st.tris = [])
    (hpts : st.pts = [q0, q1, q2]) (h3 : ¬coplanarZero q0 q1 q2 p) :
    insert st p = finalize st.tol (st.pts ++ [p]) (seedTris (st.pts ++ [p])) := by
  unfold insert
  rw [if_neg (by simp [h1]), h2, hpts]
  dsimp only
  rw [if_neg h3]

theorem insert_split {st : TriState K} {p : Pt3 K} {t : Tri} {ts tris' : List Tri}
    (h1 : existsDup st.tol p st.pts = false) (h2 : st.tris = t :: ts)
    (hfs : findTriSplit st.pts p st.pts.length st.tris = some tris') :
    insert st p = finalize st.tol (st.pts ++ [p]) tris' := by
  unfold insert
  rw [if_neg (by simp [h1]), h2]
  rw [h2] at hfs
  dsimp only
  rw [hfs]

/-- Successful insertion always yields a mesh satisfying the global
Delaunay property: in the bootstrap phase vacuously, afterwards because the
flip cascade only terminates successfully once the check passes. -/
theorem insert_ok_delaunay {st : TriState K} {p : Pt3 K} {st' : TriState K}
    (h : insert st p = .ok st') : delaunayB st'.pts st'.tris = true := by
  unfold insert at h
  split at h
  · cases h
  · split at h
    · -- bootstrap phase
      split at h
      · -- exactly three points so far: seed the tetrahedron
        split at h
        · cases h
        · obtain ⟨-, h2, h3, -, -⟩ := finalize_spec h
          rw [h2]; exact h3
      · -- fewer points: just buffer, or unreachable state
        split at h
        · cases h
          simp [delaunayB]
        · cases h
    · -- BUILT phase: split the containing triangle and restore
      split at h
      next tris' hfs =>
        obtain ⟨-, h2, h3, -, -⟩ := finalize_spec h
        rw [h2]; exact h3
      next => cases h

theorem seedTris_length (pts : List (Pt3 K)) : (seedTris pts).length = 4 := by
  simp [seedTris]

/-- Insertion preserves the size/structure invariant: buffering adds a
point, seeding creates the four tetrahedron faces, splitting adds one point
and two triangles, and the flip cascade never changes the triangle count. -/
theorem insert_meshInv {st : TriState K} {p : Pt3 K} {st' : TriState K}
    (hI : meshInv st) (h : insert st p = .ok st') : meshInv st' := by
  unfold insert at h
  split at h
  · cases h
  · split at h
    next htris =>
      split at h
      next q0 q1 q2 hpts =>
        split at h
        · cases h
        · obtain ⟨-, h2, -, h4, h5⟩ := finalize_spec h
          rw [seedTris_length] at h5
          refine Or.inr ⟨?_, ?_, ?_, h4⟩
          · intro hnil
            rw [hnil] at h5
            cases h5
          · rw [h2, hpts]
            simp
          · rw [h2, hpts, h5]
            simp
      next =>
        split at h
        next hlt =>
          cases h
          exact Or.inl ⟨rfl, by simpa using Nat.succ_le_of_lt hlt⟩
        next => cases h
    next t ts htris =>
      split at h
      next tris' hfs =>
        obtain ⟨-, h2, -, h4, h5⟩ := finalize_spec h
        rcases hI with ⟨hnil, -⟩ | ⟨-, hn, hcount, -⟩
        · rw [htris] at hnil
          cases hnil
        · have hfl := findTriSplit_length _ _ hfs
          refine Or.inr ⟨?_, ?_, ?_, h4⟩
          · intro hnil
            rw [hnil] at h5
            rw [hfl] at h5
            simp at h5
          · rw [h2]
            simp
            omega
          · rw [h2, h5, hfl]
            simp
            omega
      next => cases h

/-- Any property preserved by successful insertion is an invariant of the
sequential build. -/
theorem buildList_inv (P : TriState K → Prop)
    (hP : ∀ (st : TriState K) (p : Pt3 K) (st' : TriState K),
        P st → insert st p = .ok st' → P st') :
    ∀ (ps : List (Pt3 K)) (st st' : TriState K),
      P st → buildList st ps = .ok st' → P st' := by
  intro ps
  induction ps with
  | nil =>
    intro st st' hp h
    cases h
    exact hp
  | cons p ps ih =>
    intro st st' hp h
    unfold buildList at h
    split at h
    next st1 hins => exact ih st1 st' (hP st p st1 hp hins) h
    next => cases h

theorem buildMesh_ok {tol : K} {ps : List (Pt3 K)} {st : TriState K}
    (h : buildMesh tol ps = some st) :
    buildE tol ps = .ok st ∧ st.tris ≠ [] := by
  unfold buildMesh at h
  split at h
  next st0 hb =>
    split at h
    next => cases h
    next hne =>
      cases h
      exact ⟨hb, by simpa [List.isEmpty_iff] using hne⟩
  next => cases h

theorem buildMesh_meshInv {tol : K} {ps : List (Pt3 K)} {st : TriState K}
    (h : buildMesh tol ps = some st) : meshInv st := by
  obtain ⟨hb, -⟩ := buildMesh_ok h
  exact buildList_inv meshInv (fun st p st' hp hins => insert_meshInv hp hins)
    ps ⟨tol, [], []⟩ st (Or.inl ⟨rfl, by simp⟩) hb

theorem edgeList_length : ∀ tris : List Tri, (edgeList tris).length = 3 * tris.length := by
  intro tris
  induction tris with
  | nil => simp [edgeList]
  | cons t ts ih =>
    simp [edgeList, edgesOf, ih]
    ring

theorem cnt_eq_multiset_count {A : Type} [DecidableEq A] (a : A) :
    ∀ l : List A, cnt a l = Multiset.count a (l : Multiset A) := by
  intro l
  induction l with
  | nil => simp [cnt]
  | cons b l ih =>
    rw [cnt, ih]
    rw [show ((b :: l : List A) : Multiset A) = b ::ₘ (l : Multiset A) from rfl]
    by_cases hb : b = a
    · rw [if_pos hb, hb, Multiset.count_cons_self]
      omega
    · rw [if_neg hb, Multiset.count_cons_of_ne (fun hh => hb hh.symm)]
      omega

theorem length_eq_two_mul_dedup {A : Type} [DecidableEq A] {l : List A}
    (h : ∀ e ∈ l, cnt e l = 2) : l.length = 2 * l.dedup.length := by
  have h1 := Multiset.toFinset_sum_count_eq (l : Multiset A)
  have h2 : ∀ e ∈ l, Multiset.count e (l : Multiset A) = 2 := by
    intro e he
    rw [← cnt_eq_multiset_count]
    exact h e he
  calc l.length = Multiset.card (l : Multiset A) := by simp
    _ = ∑ a in (l : Multiset A).toFinset, Multiset.count a (l : Multiset A) := h1.symm
    _ = ∑ a in l.toFinset, (2 : ℕ) := by
        rw [List.toFinset_coe]
        exact Finset.sum_congr rfl fun a ha => h2 a (List.mem_toFinset.mp ha)
    _ = 2 * l.toFinset.card := by rw [Finset.sum_const, smul_eq_mul, mul_comm]
    _ = 2 * l.dedup.length := by rw [List.card_toFinset]

/-- In a mesh where every edge is shared by exactly two triangles, the
distinct-edge count satisfies the double-counting identity `2 E = 3 T`. -/
theorem proper_edgeCount {tris : List Tri} (hp : properB tris = true) :
    2 * edgeCount tris = 3 * tris.length := by
  unfold properB at hp
  rw [List.all_eq_true] at hp
  have h2 : ∀ e ∈ edgeList tris, cnt e (edgeList tris) = 2 := by
    intro e he
    have := hp e he
    simpa using this
  have h3 := length_eq_two_mul_dedup (l := edgeList tris) h2
  rw [edgeList_length] at h3
  unfold edgeCount
  omega

/-- Symbolic execution of the four-point build on the tetrahedron
`(1,0,0), (0,1,0), (0,0,1), (-s,-s,-s)`: for any positive `s` the build
succeeds and produces exactly the four oriented tetrahedron faces.  (All
geometric sign conditions depend on `s` only through `0 < s`.) -/
theorem tetra_build (s : K) (hs : 0 < s) :
    buildMesh (0 : K) [⟨1, 0, 0⟩, ⟨0, 1, 0⟩, ⟨0, 0, 1⟩, ⟨-s, -s, -s⟩] =
      some ⟨0, [⟨1, 0, 0⟩, ⟨0, 1, 0⟩, ⟨0, 0, 1⟩, ⟨-s, -s, -s⟩],
        [⟨0, 1, 2⟩, ⟨0, 3, 1⟩, ⟨0, 2, 3⟩, ⟨1, 3, 2⟩]⟩ := by
  set p0 : Pt3 K := ⟨1, 0, 0⟩ with hp0
  set p1 : Pt3 K := ⟨0, 1, 0⟩ with hp1
  set p2 : Pt3 K := ⟨0, 0, 1⟩ with hp2
  set p3 : Pt3 K := ⟨-s, -s, -s⟩ with hp3
  have g0 : getPt [p0, p1, p2, p3] 0 = p0 := rfl
  have g1 : getPt [p0, p1, p2, p3] 1 = p1 := rfl
  have g2 : getPt [p0, p1, p2, p3] 2 = p2 := rfl
  have g3 : getPt [p0, p1, p2, p3] 3 = p3 := rfl
  have i0 : insert (⟨0, [], []⟩ : TriState K) p0 = .ok ⟨0, [p0], []⟩ := by
    have := @insert_buffer K _ ⟨0, [], []⟩ p0 rfl rfl (by simp)
    simpa using this
  have i1 : insert (⟨0, [p0], []⟩ : TriState K) p1 = .ok ⟨0, [p0, p1], []⟩ := by
    have h1 : existsDup (0 : K) p1 [p0] = false := by
      rw [existsDup_false_iff]
      intro q hq
      simp only [List.mem_cons, List.not_mem_nil, or_false] at hq
      subst hq
      simp only [dist2, hp0, hp1]
      norm_num
    have := @insert_buffer K _ ⟨0, [p0], []⟩ p1 h1 rfl (by simp)
    simpa using this
  have i2 : insert (⟨0, [p0, p1], []⟩ : TriState K) p2 = .ok ⟨0, [p0, p1, p2], []⟩ := by
    have h1 : existsDup (0 : K) p2 [p0, p1] = false := by
      rw [existsDup_false_iff]
      intro q hq
      simp only [List.mem_cons, List.not_mem_nil, or_false] at hq
      rcases hq with rfl | rfl <;>
        · simp only [dist2, hp0, hp1, hp2]
          norm_num
    have := @insert_buffer K _ ⟨0, [p0, p1], []⟩ p2 h1 rfl (by simp)
    simpa using this
  have hdup3 : existsDup (0 : K) p3 [p0, p1, p2] = false := by
    rw [existsDup_false_iff]
    intro q hq
    simp only [List.mem_cons, List.not_mem_nil, or_false] at hq
    rcases hq with rfl | rfl | rfl <;>
      · simp only [dist2, hp0, hp1, hp2, hp3]
        intro hle
        nlinarith [sq_nonneg s, hs]
  have hcop : ¬coplanarZero p0 p1 p2 p3 := by
    intro hc
    have h1 := hc.1
    rw [hp0, hp1, hp2] at h1
    norm_num [det3] at h1
  have hseed : insert (⟨0, [p0, p1, p2], []⟩ : TriState K) p3 =
      finalize 0 ([p0, p1, p2] ++ [p3]) (seedTris ([p0, p1, p2] ++ [p3])) := by
    exact @insert_seed K _ ⟨0, [p0, p1, p2], []⟩ p3 p0 p1 p2 hdup3 rfl rfl hcop
  have happ : [p0, p1, p2] ++ [p3] = [p0, p1, p2, p3] := by simp
  have hseedTris : seedTris [p0, p1, p2, p3] = [⟨0, 1, 2⟩, ⟨0, 3, 1⟩, ⟨0, 2, 3⟩, ⟨1, 3, 2⟩] := by
    unfold seedTris mkFace
    rw [g0, g1, g2, g3]
    rw [if_pos (show 0 < det3 p0 p1 p2 by rw [hp0, hp1, hp2]; norm_num [det3])]
    rw [if_neg (show ¬0 < det3 p0 p1 p3 by
      rw [hp0, hp1, hp3]; simp only [det3]; intro hlt; nlinarith [hs])]
    rw [if_pos (show 0 < det3 p0 p2 p3 by
      rw [hp0, hp2, hp3]; simp only [det3]; nlinarith [hs])]
    rw [if_neg (show ¬0 < det3 p1 p2 p3 by
      rw [hp1, hp2, hp3]; simp only [det3]; intro hlt; nlinarith [hs])]
  have hdel : delaunayB [p0, p1, p2, p3] [⟨0, 1, 2⟩, ⟨0, 3, 1⟩, ⟨0, 2, 3⟩, ⟨1, 3, 2⟩] = true := by
    rw [delaunayB_iff]
    intro t ht k hk hkv
    simp only [List.length_cons, List.length_nil] at hk
    fin_cases ht <;>
      · interval_cases k <;>
          first
            | (exfalso; apply hkv; decide)
            | (intro hlt
               simp [inCapP, det3, psub, getPt, hp0, hp1, hp2, hp3] at hlt
               nlinarith [hs, hlt])
  have hproper : properB [⟨0, 1, 2⟩, ⟨0, 3, 1⟩, ⟨0, 2, 3⟩, ⟨1, 3, 2⟩] = true := by decide
  have hfin : finalize (0 : K) [p0, p1, p2, p3]
      (seedTris [p0, p1, p2, p3]) =
      .ok ⟨0, [p0, p1, p2, p3], [⟨0, 1, 2⟩, ⟨0, 3, 1⟩, ⟨0, 2, 3⟩, ⟨1, 3, 2⟩]⟩ := by
    rw [hseedTris]
    exact finalize_of_checks hdel hproper
  unfold buildMesh buildE
  simp only [buildList, i0, i1, i2, hseed, happ, hfin]
  simp [List.isEmpty]

theorem circleFreeUpTo_iff (pts : List (Pt2 K)) (t : Tri) :
    ∀ n : ℕ, circleFreeUpTo pts t n = true ↔
      ∀ k < n, ¬(k = t.a ∨ k = t.b ∨ k = t.c) →
        ¬inCircleP (getPt2 pts t.a) (getPt2 pts t.b) (getPt2 pts t.c) (getPt2 pts k) := by
  intro n
  induction n with
  | zero => simp [circleFreeUpTo]
  | succ m ih =>
    unfold circleFreeUpTo
    by_cases hv : m = t.a ∨ m = t.b ∨ m = t.c
    · rw [if_pos hv, ih]
      constructor
      · intro h k hk hkv
        rcases Nat.lt_succ_iff_lt_or_eq.mp hk with hk' | rfl
        · exact h k hk' hkv
        · exact absurd hv hkv
      · intro h k hk hkv
        exact h k (Nat.lt_succ_of_lt hk) hkv
    · rw [if_neg hv]
      by_cases hc : inCircleP (getPt2 pts t.a) (getPt2 pts t.b) (getPt2 pts t.c) (getPt2 pts m)
      · rw [if_pos hc]
        constructor
        · intro h; cases h
        · intro h
          exact absurd hc (h m (Nat.lt_succ_self m) hv)
      · rw [if_neg hc, ih]
        constructor
        · intro h k hk hkv
          rcases Nat.lt_succ_iff_lt_or_eq.mp hk with hk' | rfl
          · exact h k hk' hkv
          · exact hc
        · intro h k hk hkv
          exact h k (Nat.lt_succ_of_lt hk) hkv

theorem delaunay2B_iff (pts : List (Pt2 K)) :
    ∀ tris : List Tri, delaunay2B pts tris = true ↔
      ∀ t ∈ tris, ∀ k < pts.length, ¬(k = t.a ∨ k = t.b ∨ k = t.c) →
        ¬inCircleP (getPt2 pts t.a) (getPt2 pts t.b) (getPt2 pts t.c) (getPt2 pts k) := by
  intro tris
  induction tris with
  | nil => simp [delaunay2B]
  | cons t ts ih =>
    unfold delaunay2B
    rw [Bool.and_eq_true, ih, circleFreeUpTo_iff]
    constructor
    · rintro ⟨h1, h2⟩ u hu
      rcases List.mem_cons.mp hu with rfl | hu
      · exact h1
      · exact h2 u hu
    · intro h
      exact ⟨h t (List.mem_cons_self t ts), fun u hu => h u (List.mem_cons_of_mem t hu)⟩

theorem restore2_delaunay {pts : List (Pt2 K)} :
    ∀ (fuel : ℕ) (tris tris' : List Tri), restore2 pts fuel tris = some tris' →
      delaunay2B pts tris' = true := by
  intro fuel
  induction fuel with
  | zero => intro tris tris' h; simp [restore2] at h
  | succ n ih =>
    intro tris tris' h
    unfold restore2 at h
    by_cases hd : delaunay2B pts tris = true
    · rw [if_pos hd] at h
      cases h
      exact hd
    · rw [if_neg hd] at h
      cases hfs : flipScan2 pts tris with
      | some tris'' =>
        rw [hfs] at h
        exact ih tris'' tris' h
      | none => rw [hfs] at h; cases h

theorem finalize2_ok {tol : K} {pts : List (Pt2 K)} {tris : List Tri} {st : PlState K}
    (h : finalize2 tol pts tris = .ok st) :
    st.pts = pts ∧ delaunay2B pts st.tris = true := by
  unfold finalize2 at h
  split at h
  next tris' hr =>
    cases h
    exact ⟨rfl, restore2_delaunay _ tris tris' hr⟩
  next => cases h

/-- The planar analogue of `insert_ok_delaunay`: every successful planar
insertion yields a mesh passing the global in-circumcircle check. -/
theorem insert2_ok_delaunay {st : PlState K} {p : Pt2 K} {st' : PlState K}
    (h : insert2 st p = .ok st') : delaunay2B st'.pts st'.tris = true := by
  unfold insert2 at h
  split at h
  · cases h
  · split at h
    · split at h
      · split at h
        · cases h
        · obtain ⟨h1, h2⟩ := finalize2_ok h
          rw [h1]
          exact h2
      · split at h
        · cases h
          simp [delaunay2B]
        · cases h
    · split at h
      next tris' hfs =>
        obtain ⟨h1, h2⟩ := finalize2_ok h
        rw [h1]
        exact h2
      next => cases h

/-- Any property preserved by successful planar insertion is an invariant
of the planar sequential build. -/
theorem buildList2_inv (P : PlState K → Prop)
    (hP : ∀ (st : PlState K) (p : Pt2 K) (st' : PlState K),
        P st → insert2 st p = .ok st' → P st') :
    ∀ (ps : List (Pt2 K)) (st st' : PlState K),
      P st → buildList2 st ps = .ok st' → P st' := by
  intro ps
  induction ps with
  | nil =>
    intro st st' hp h
    cases h
    exact hp
  | cons p ps ih =>
    intro st st' hp h
    unfold buildList2 at h
    split at h
    next st1 hins => exact ih st1 st' (hP st p st1 hp hins) h
    next => cases h

theorem buildMesh2_ok {tol : K} {ps : List (Pt2 K)} {st : PlState K}
    (h : buildMesh2 tol ps = some st) :
    buildE2 tol ps = .ok st ∧ st.tris ≠ [] := by
  unfold buildMesh2 at h
  split at h
  next st0 hb =>
    split at h
    next => cases h
    next hne =>
      cases h
      exact ⟨hb, by simpa [List.isEmpty_iff] using hne⟩
  next => cases h

/-- C1: for every valid point set, every triangle of the mesh produced by
sequential insertion satisfies the Delaunay property — no point of the set
that is not a vertex of the triangle lies strictly inside its circumcircle
(planar mode) or circumscribing spherical cap (spherical mode) — and this
invariant holds after every successful insert operation in either mode. -/
theorem C1_delaunay_invariant :
    (∀ (st : TriState K) (p : Pt3 K) (st' : TriState K),
        insert st p = .ok st' →
        ∀ t ∈ st'.tris, ∀ k < st'.pts.length,
          ¬(k = t.a ∨ k = t.b ∨ k = t.c) →
          ¬inCapP (getPt st'.pts t.a) (getPt st'.pts t.b) (getPt st'.pts t.c)
            (getPt st'.pts k)) ∧
    (∀ (tol : K) (ps : List (Pt3 K)) (st : TriState K),
        buildMesh tol ps = some st →
        ∀ t ∈ st.tris, ∀ k < st.pts.length,
          ¬(k = t.a ∨ k = t.b ∨ k = t.c) →
          ¬inCapP (getPt st.pts t.a) (getPt st.pts t.b) (getPt st.pts t.c)
            (getPt st.pts k)) ∧
    (∀ (st : PlState K) (p : Pt2 K) (st' : PlState K),
        insert2 st p = .ok st' →
        ∀ t ∈ st'.tris, ∀ k < st'.pts.length,
          ¬(k = t.a ∨ k = t.b ∨ k = t.c) →
          ¬inCircleP (getPt2 st'.pts t.a) (getPt2 st'.pts t.b) (getPt2 st'.pts t.c)
            (getPt2 st'.pts k)) ∧
    (∀ (tol : K) (ps : List (Pt2 K)) (st : PlState K),
        buildMesh2 tol ps = some st →
        ∀ t ∈ st.tris, ∀ k < st.pts.length,
          ¬(k = t.a ∨ k = t.b ∨ k = t.c) →
          ¬inCircleP (getPt2 st.pts t.a) (getPt2 st.pts t.b) (getPt2 st.pts t.c)
            (getPt2 st.pts k)) := by
  refine ⟨?_, ?_, ?_, ?_⟩
  · intro st p st' h
    exact (delaunayB_iff _ _).mp (insert_ok_delaunay h)
  · intro tol ps st h
    obtain ⟨hb, -⟩ := buildMesh_ok h
    have hD : delaunayB st.pts st.tris = true :=
      buildList_inv (fun m => delaunayB m.pts m.tris = true)
        (fun _ _ _ _ hins => insert_ok_delaunay hins) ps ⟨tol, [], []⟩ st rfl hb
    exact (delaunayB_iff _ _).mp hD
  · intro st p st' h
    exact (delaunay2B_iff _ _).mp (insert2_ok_delaunay h)
  · intro tol ps st h
    obtain ⟨hb, -⟩ := buildMesh2_ok h
    have hD : delaunay2B st.pts st.tris = true :=
      buildList2_inv (fun m => delaunay2B m.pts m.tris = true)
        (fun _ _ _ _ hins => insert2_ok_delaunay hins) ps ⟨tol, [], []⟩ st rfl hb
    exact (delaunay2B_iff _ _).mp hD

/-- Witness for C1: the concrete four-point integer builds in both modes —
the spherical tetrahedron and the planar triangle split at an interior
point — succeed and the theorem applies to them. -/
theorem C1_delaunay_invariant_witness :
    buildMesh (0 : ℤ) wpts = some wstate ∧
    (∀ t ∈ wstate.tris, ∀ k < wstate.pts.length,
        ¬(k = t.a ∨ k = t.b ∨ k = t.c) →
        ¬inCapP (getPt wstate.pts t.a) (getPt wstate.pts t.b) (getPt wstate.pts t.c)
          (getPt wstate.pts k)) ∧
    buildMesh2 (0 : ℤ) wpts2 = some wstate2 ∧
    (∀ t ∈ wstate2.tris, ∀ k < wstate2.pts.length,
        ¬(k = t.a ∨ k = t.b ∨ k = t.c) →
        ¬inCircleP (getPt2 wstate2.pts t.a) (getPt2 wstate2.pts t.b)
          (getPt2 wstate2.pts t.c) (getPt2 wstate2.pts k)) :=
  ⟨by decide, C1_delaunay_invariant.2.1 0 wpts wstate (by decide),
    by decide, C1_delaunay_invariant.2.2.2 0 wpts2 wstate2 (by decide)⟩

/-- C2: every successfully built spherical triangulation of `N` points has
`2 N - 4` triangles and `3 N - 6` distinct edges; in particular the unit
tetrahedron `(1,0,0), (0,1,0), (0,0,1), (-1,-1,-1)/√3` produces exactly
four triangles, and each vertex has the other three as neighbors. -/
theorem C2_euler_counts :
    (∀ (tol : K) (ps : List (Pt3 K)) (st : TriState K),
        buildMesh tol ps = some st →
          st.tris.length = 2 * st.pts.length - 4 ∧
          edgeCount st.tris = 3 * st.pts.length - 6) ∧
    (∃ st : TriState ℝ,
        buildMesh (0 : ℝ)
            [⟨1, 0, 0⟩, ⟨0, 1, 0⟩, ⟨0, 0, 1⟩,
              ⟨-(Real.sqrt 3)⁻¹, -(Real.sqrt 3)⁻¹, -(Real.sqrt 3)⁻¹⟩] = some st ∧
        st.tris.length = 4 ∧
        ∀ v < 4, ∀ u < 4, u ≠ v → u ∈ neighborsOf st.tris v) := by
  constructor
  · intro tol ps st h
    have hInv := buildMesh_meshInv h
    obtain ⟨-, hne⟩ := buildMesh_ok h
    rcases hInv with ⟨hnil, -⟩ | ⟨-, hn, hcount, hprop⟩
    · exact absurd hnil hne
    · have hE := proper_edgeCount hprop
      exact ⟨by omega, by omega⟩
  · refine ⟨⟨0, [⟨1, 0, 0⟩, ⟨0, 1, 0⟩, ⟨0, 0, 1⟩,
        ⟨-(Real.sqrt 3)⁻¹, -(Real.sqrt 3)⁻¹, -(Real.sqrt 3)⁻¹⟩],
      [⟨0, 1, 2⟩, ⟨0, 3, 1⟩, ⟨0, 2, 3⟩, ⟨1, 3, 2⟩]⟩, ?_, ?_, ?_⟩
    · exact tetra_build ((Real.sqrt 3)⁻¹)
        (inv_pos.mpr (Real.sqrt_pos.mpr (by norm_num)))
    · rfl
    · decide

/-- Witness for C2: the integer tetrahedron build has `2·4-4 = 4` triangles
and `3·4-6 = 6` edges. -/
theorem C2_euler_counts_witness :
    buildMesh (0 : ℤ) wpts = some wstate ∧
    wstate.tris.length = 2 * wstate.pts.length - 4 ∧
    edgeCount wstate.tris = 3 * wstate.pts.length - 6 :=
  ⟨by decide, C2_euler_counts.1 0 wpts wstate (by decide)⟩

/-! ### Error characterisation -/

theorem finalize_error {tol : K} {pts : List (Pt3 K)} {tris : List Tri} {e : InsErr}
    (h : finalize tol pts tris = .error e) : e = .internal := by
  unfold finalize at h
  split at h
  · split at h
    · cases h
    · cases h; rfl
  · cases h; rfl

theorem finalize2_error {tol : K} {pts : List (Pt2 K)} {tris : List Tri} {e : InsErr}
    (h : finalize2 tol pts tris = .error e) : e = .internal := by
  unfold finalize2 at h
  split at h
  · cases h
  · cases h; rfl

/-- The spherical insert fails with the duplicate error exactly when some
existing vertex lies within the tolerance of the new point. -/
theorem insert_dup_iff (st : TriState K) (p : Pt3 K) :
    insert st p = .error .duplicate ↔ ∃ q ∈ st.pts, dist2 p q ≤ st.tol := by
  constructor
  · intro h
    by_cases hd : existsDup st.tol p st.pts = true
    · exact (existsDup_iff _ _ _).mp hd
    · exfalso
      unfold insert at h
      rw [if_neg hd] at h
      split at h
      · split at h
        · split at h
          · simp at h
          · have := finalize_error h
            simp at this
        · split at h
          · simp at h
          · simp at h
      · split at h
        · have := finalize_error h
          simp at this
        · simp at h
  · intro ⟨q, hq, hle⟩
    unfold insert
    rw [if_pos ((existsDup_iff _ _ _).mpr ⟨q, hq, hle⟩)]

theorem existsDup2_iff (tol : K) (p : Pt2 K) :
    ∀ l : List (Pt2 K), existsDup2 tol p l = true ↔ ∃ q ∈ l, dist2P p q ≤ tol := by
  intro l
  induction l with
  | nil => simp [existsDup2]
  | cons q qs ih =>
    unfold existsDup2
    by_cases h : dist2P p q ≤ tol
    · simp [h]
    · simp only [if_neg h, ih]
      constructor
      · rintro ⟨r, hr, hle⟩; exact ⟨r, List.mem_cons_of_mem _ hr, hle⟩
      · rintro ⟨r, hr, hle⟩
        rcases List.mem_cons.mp hr with rfl | hr
        · exact absurd hle h
        · exact ⟨r, hr, hle⟩

/-- The planar insert fails with the duplicate error exactly when some
existing vertex lies within the tolerance of the new point. -/
theorem insert2_dup_iff (st : PlState K) (p : Pt2 K) :
    insert2 st p = .error .duplicate ↔ ∃ q ∈ st.pts, dist2P p q ≤ st.tol := by
  constructor
  · intro h
    by_cases hd : existsDup2 st.tol p st.pts = true
    · exact (existsDup2_iff _ _ _).mp hd
    · exfalso
      unfold insert2 at h
      rw [if_neg hd] at h
      split at h
      · split at h
        · split at h
          · simp at h
          · have := finalize2_error h
            simp at this
        · split at h
          · simp at h
          · simp at h
      · split at h
        · have := finalize2_error h
          simp at this
        · simp at h
  · intro ⟨q, hq, hle⟩
    unfold insert2
    rw [if_pos ((existsDup2_iff _ _ _).mpr ⟨q, hq, hle⟩)]

theorem insert_degenerate_of {st : TriState K} {p q0 q1 q2 : Pt3 K}
    (h2 : st.tris = []) (hpts : st.pts = [q0, q1, q2])
    (hdup : existsDup st.tol p st.pts = false) (hcop : coplanarZero q0 q1 q2 p) :
    insert st p = .error .degenerate := by
  unfold insert
  rw [if_neg (by simp [hdup]), h2, hpts]
  dsimp only
  rw [if_pos hcop]

theorem insert2_degenerate_of {st : PlState K} {p q0 q1 : Pt2 K}
    (h2 : st.tris = []) (hpts : st.pts = [q0, q1])
    (hdup : existsDup2 st.tol p st.pts = false) (hcol : orient2 q0 q1 p = 0) :
    insert2 st p = .error .degenerate := by
  unfold insert2
  rw [if_neg (by simp [hdup]), h2, hpts]
  dsimp only
  rw [if_pos hcol]

theorem buildList_stops {st : TriState K} {p : Pt3 K} {ps : List (Pt3 K)} {e : InsErr}
    (h : insert st p = .error e) : buildList st (p :: ps) = .error e := by
  simp only [buildList, h]

/-- C6: insert fails with `DuplicatePointError` iff the point coincides
with an existing vertex within the configured tolerance (both modes);
it fails with `DegenerateInputError` when the first three bootstrap points
are collinear (planar) or the first four are coplanar through the origin
(spherical); and a construction error is surfaced immediately, stopping the
sequential build. -/
theorem C6_error_taxonomy :
    (∀ (st : TriState K) (p : Pt3 K),
        insert st p = .error .duplicate ↔ ∃ q ∈ st.pts, dist2 p q ≤ st.tol) ∧
    (∀ (st : TriState K) (p q0 q1 q2 : Pt3 K),
        st.tris = [] → st.pts = [q0, q1, q2] →
        existsDup st.tol p st.pts = false → coplanarZero q0 q1 q2 p →
        insert st p = .error .degenerate) ∧
    (∀ (st : PlState K) (p : Pt2 K),
        insert2 st p = .error .duplicate ↔ ∃ q ∈ st.pts, dist2P p q ≤ st.tol) ∧
    (∀ (st : PlState K) (p q0 q1 : Pt2 K),
        st.tris = [] → st.pts = [q0, q1] →
        existsDup2 st.tol p st.pts = false → orient2 q0 q1 p = 0 →
        insert2 st p = .error .degenerate) ∧
    (∀ (st : TriState K) (p : Pt3 K) (ps : List (Pt3 K)) (e : InsErr),
        insert st p = .error e → buildList st (p :: ps) = .error e) :=
  ⟨insert_dup_iff, fun _ _ _ _ _ => insert_degenerate_of, insert2_dup_iff,
    fun _ _ _ _ => insert2_degenerate_of, fun _ _ _ _ => buildList_stops⟩

/-- Witness for C6: a duplicate insertion into the built tetrahedron, a
degenerate spherical bootstrap (four points on the equator great circle), a
planar duplicate, a collinear planar bootstrap, and error propagation
through the build. -/
theorem C6_error_taxonomy_witness :
    insert wstate (⟨3, 0, 0⟩ : Pt3 ℤ) = .error .duplicate ∧
    insert (⟨0, [⟨3, 0, 0⟩, ⟨0, 3, 0⟩, ⟨-3, 0, 0⟩], []⟩ : TriState ℤ) ⟨0, -3, 0⟩ =
      .error .degenerate ∧
    insert2 (⟨0, [⟨1, 0⟩], []⟩ : PlState ℤ) ⟨1, 0⟩ = .error .duplicate ∧
    insert2 (⟨0, [⟨0, 0⟩, ⟨1, 0⟩], []⟩ : PlState ℤ) ⟨2, 0⟩ = .error .degenerate ∧
    buildList wstate [⟨3, 0, 0⟩, ⟨5, 5, 5⟩] = .error .duplicate :=
  ⟨(C6_error_taxonomy.1 wstate ⟨3, 0, 0⟩).mpr ⟨⟨3, 0, 0⟩, by decide, by decide⟩,
    C6_error_taxonomy.2.1 _ ⟨0, -3, 0⟩ ⟨3, 0, 0⟩ ⟨0, 3, 0⟩ ⟨-3, 0, 0⟩ rfl rfl
      (by decide) (by decide),
    (C6_error_taxonomy.2.2.1 _ ⟨1, 0⟩).mpr ⟨⟨1, 0⟩, by decide, by decide⟩,
    C6_error_taxonomy.2.2.2.1 _ ⟨2, 0⟩ ⟨0, 0⟩ ⟨1, 0⟩ rfl rfl (by decide) (by decide),
    C6_error_taxonomy.2.2.2.2 wstate ⟨3, 0, 0⟩ [⟨5, 5, 5⟩] .duplicate
      ((C6_error_taxonomy.1 wstate ⟨3, 0, 0⟩).mpr ⟨⟨3, 0, 0⟩, by decide, by decide⟩)⟩

theorem insert_ok_built {st : TriState K} {p : Pt3 K} {st' : TriState K}
    (hne : st.tris ≠ []) (h : insert st p = .ok st') :
    st'.tris ≠ [] ∧ st'.pts = st.pts ++ [p] := by
  unfold insert at h
  split at h
  · cases h
  · split at h
    next htris => exact absurd htris hne
    next t ts htris =>
      split at h
      next tris' hfs =>
        obtain ⟨-, h2, -, -, h5⟩ := finalize_spec h
        have hfl := findTriSplit_length _ _ hfs
        refine ⟨?_, h2⟩
        intro hnil
        rw [hnil] at h5
        rw [hfl] at h5
        simp at h5
      next => cases h

/-- C7: on a BUILT mesh, insertion is atomic — it either completes (the
flip cascade runs to completion, the mesh returns to BUILT and satisfies
the restored Delaunay invariant) or it is rejected and the caller-visible
mesh is exactly the pre-insertion state. -/
theorem C7_insert_atomic :
    ∀ (st : TriState K) (p : Pt3 K), st.tris ≠ [] →
      (∃ st', insert st p = .ok st' ∧ insertUpd st p = st' ∧
          st'.tris ≠ [] ∧ delaunayB st'.pts st'.tris = true) ∨
      (∃ e, insert st p = .error e ∧ insertUpd st p = st) := by
  intro st p hne
  cases h : insert st p with
  | ok st' =>
    left
    obtain ⟨h1, -⟩ := insert_ok_built hne h
    exact ⟨st', rfl, by unfold insertUpd; rw [h], h1, insert_ok_delaunay h⟩
  | error e =>
    right
    exact ⟨e, rfl, by unfold insertUpd; rw [h]⟩

/-- Witness for C7: atomicity instantiated on the built integer tetrahedron
and a fresh fifth point. -/
theorem C7_insert_atomic_witness :
    (∃ st', insert wstate (⟨2, 2, 1⟩ : Pt3 ℤ) = .ok st' ∧
        insertUpd wstate ⟨2, 2, 1⟩ = st' ∧
        st'.tris ≠ [] ∧ delaunayB st'.pts st'.tris = true) ∨
    (∃ e, insert wstate (⟨2, 2, 1⟩ : Pt3 ℤ) = .error e ∧
        insertUpd wstate ⟨2, 2, 1⟩ = wstate) :=
  C7_insert_atomic wstate ⟨2, 2, 1⟩ (by decide)

/-! ### The locator and node exactness -/

theorem scanVertex_self :
    ∀ l : List (Pt3 K), l.Nodup → ∀ v, v < l.length →
      scanVertex (getPt l v) l = some v := by
  intro l
  induction l with
  | nil => intro _ v hv; simp at hv
  | cons q qs ih =>
    intro hnd v hv
    cases v with
    | zero =>
      unfold scanVertex
      rw [if_pos (show q = getPt (q :: qs) 0 from rfl)]
    | succ w =>
      have hm : getPt (q :: qs) (w + 1) = getPt qs w := rfl
      have hwlt : w < qs.length := by simpa using hv
      have hmem : getPt qs w ∈ qs := by
        rw [getPt, List.getD_eq_getElem _ _ hwlt]
        exact List.getElem_mem hwlt
      have hne : ¬q = getPt (q :: qs) (w + 1) := by
        rw [hm]
        intro hq
        exact (List.nodup_cons.mp hnd).1 (hq ▸ hmem)
      unfold scanVertex
      rw [if_neg hne, hm, ih (List.nodup_cons.mp hnd).2 w hwlt]
      rfl

theorem scanVertex_some {p : Pt3 K} :
    ∀ l : List (Pt3 K), ∀ i, scanVertex p l = some i →
      i < l.length ∧ getPt l i = p := by
  intro l
  induction l with
  | nil => intro i h; simp [scanVertex] at h
  | cons q qs ih =>
    intro i h
    unfold scanVertex at h
    by_cases hq : q = p
    · rw [if_pos hq] at h
      cases h
      exact ⟨by simp, hq⟩
    · rw [if_neg hq] at h
      cases hs : scanVertex p qs with
      | none => rw [hs] at h; cases h
      | some i' =>
        rw [hs] at h
        cases h
        obtain ⟨h1, h2⟩ := ih i' hs
        exact ⟨by simpa using h1, h2⟩

theorem insert_ok_pts {st : TriState K} {p : Pt3 K} {st' : TriState K}
    (h : insert st p = .ok st') :
    st'.pts = st.pts ++ [p] ∧ st'.tol = st.tol ∧
      existsDup st.tol p st.pts = false := by
  unfold insert at h
  split at h
  next => cases h
  next hdup =>
    rw [Bool.not_eq_true] at hdup
    split at h
    · split at h
      · split at h
        · cases h
        · obtain ⟨h1, h2, -, -, -⟩ := finalize_spec h
          exact ⟨h2, h1, hdup⟩
      · split at h
        · cases h
          exact ⟨rfl, rfl, hdup⟩
        · cases h
    · split at h
      · obtain ⟨h1, h2, -, -, -⟩ := finalize_spec h
        exact ⟨h2, h1, hdup⟩
      · cases h

theorem dist2_self (p : Pt3 K) : dist2 p p = 0 := by
  simp [dist2]

theorem insert_nodup {st : TriState K} {p : Pt3 K} {st' : TriState K}
    (htol : 0 ≤ st.tol) (hnd : st.pts.Nodup) (h : insert st p = .ok st') :
    st'.pts.Nodup := by
  obtain ⟨h1, -, h3⟩ := insert_ok_pts h
  rw [h1]
  rw [List.nodup_append]
  refine ⟨hnd, List.nodup_singleton p, ?_⟩
  intro q hq hq'
  have hqp : q = p := by simpa using hq'
  subst hqp
  have := (existsDup_false_iff _ _ _).mp h3 q hq
  exact this (by rw [dist2_self]; exact htol)

theorem buildMesh_nodup {tol : K} {ps : List (Pt3 K)} {st : TriState K}
    (htol : 0 ≤ tol) (h : buildMesh tol ps = some st) : st.pts.Nodup := by
  obtain ⟨hb, -⟩ := buildMesh_ok h
  have := buildList_inv (fun m => m.pts.Nodup ∧ m.tol = tol)
    (fun m p m' hp hins =>
      ⟨insert_nodup (hp.2 ▸ htol) hp.1 hins, (insert_ok_pts hins).2.1.trans hp.2⟩)
    ps ⟨tol, [], []⟩ st ⟨List.nodup_nil, rfl⟩ hb
  exact this.1

/-- C4: interpolation is exact at the nodes — for every mesh with distinct
vertices (in particular every built mesh; the first conjunct shows built
meshes have pairwise distinct points), every field array, every gradient
array and every tension, `evaluate` at the stored coordinates of a mesh
vertex returns exactly the stored field value of that vertex. -/
theorem C4_node_exact :
    (∀ (tol : F) (ps : List (Pt3 F)) (st : TriState F),
        0 ≤ tol → buildMesh tol ps = some st → st.pts.Nodup) ∧
    (∀ (st : TriState F) (f : List F) (g : List (Pt3 F)) (ten : F) (v : ℕ),
        st.pts.Nodup → v < st.pts.length →
        evaluate st f g ten (getPt st.pts v) = some (f.getD v 0)) := by
  constructor
  · intro tol ps st htol h
    exact buildMesh_nodup htol h
  · intro st f g ten v hnd hv
    unfold evaluate locate
    rw [scanVertex_self st.pts hnd v hv]

/-- Witness for C4: evaluation at vertex 2 of a concrete rational mesh
returns the stored value. -/
theorem C4_node_exact_witness :
    evaluate (⟨0, [⟨3, 0, 0⟩, ⟨0, 3, 0⟩, ⟨0, 0, 3⟩, ⟨-2, -2, -1⟩],
        [⟨0, 1, 2⟩, ⟨0, 3, 1⟩, ⟨0, 2, 3⟩, ⟨1, 3, 2⟩]⟩ : TriState ℚ)
      [5, 7, 11, 13] [] 2
      (getPt [⟨3, 0, 0⟩, ⟨0, 3, 0⟩, ⟨0, 0, 3⟩, ⟨-2, -2, -1⟩] 2) =
      some (([5, 7, 11, 13] : List ℚ).getD 2 0) :=
  C4_node_exact.2 _ [5, 7, 11, 13] [] 2 2 (by decide) (by decide)

/-! ### Index-bound invariant of the mesh -/

theorem trisBound_mono {m n : ℕ} (h : m ≤ n) {tris : List Tri}
    (hb : trisBound m tris) : trisBound n tris := by
  intro t ht
  obtain ⟨h1, h2, h3⟩ := hb t ht
  exact ⟨lt_of_lt_of_le h1 h, lt_of_lt_of_le h2 h, lt_of_lt_of_le h3 h⟩

theorem oppositeIn_mem {t : Tri} {u v w : ℕ} (h : oppositeIn t u v = some w) :
    w = t.a ∨ w = t.b ∨ w = t.c := by
  unfold oppositeIn at h
  split at h
  · cases h; exact Or.inr (Or.inr rfl)
  · split at h
    · cases h; exact Or.inl rfl
    · split at h
      · cases h; exact Or.inr (Or.inl rfl)
      · cases h

theorem tryEdge_bound {pts : List (Pt3 K)} {u v w1 : ℕ} {t2 : Tri} {n1 n2 : Tri} {n : ℕ}
    (h : tryEdge pts u v w1 t2 = some (n1, n2))
    (hu : u < n) (hv : v < n) (hw : w1 < n) (ht2 : t2.a < n ∧ t2.b < n ∧ t2.c < n) :
    (n1.a < n ∧ n1.b < n ∧ n1.c < n) ∧ (n2.a < n ∧ n2.b < n ∧ n2.c < n) := by
  unfold tryEdge at h
  split at h
  next w2 hop =>
    split at h
    · cases h
      have hw2 : w2 < n := by
        rcases oppositeIn_mem hop with rfl | rfl | rfl
        · exact ht2.1
        · exact ht2.2.1
        · exact ht2.2.2
      exact ⟨⟨hu, hw2, hw⟩, ⟨hv, hw, hw2⟩⟩
    · cases h
  next => cases h

theorem flipPair_bound {pts : List (Pt3 K)} {t1 t2 : Tri} {n1 n2 : Tri} {n : ℕ}
    (h : flipPair pts t1 t2 = some (n1, n2))
    (ht1 : t1.a < n ∧ t1.b < n ∧ t1.c < n) (ht2 : t2.a < n ∧ t2.b < n ∧ t2.c < n) :
    (n1.a < n ∧ n1.b < n ∧ n1.c < n) ∧ (n2.a < n ∧ n2.b < n ∧ n2.c < n) := by
  unfold flipPair at h
  split at h
  next r h1 =>
    cases h
    exact tryEdge_bound h1 ht1.1 ht1.2.1 ht1.2.2 ht2
  next h1 =>
    split at h
    next r h2 =>
      cases h
      exact tryEdge_bound h2 ht1.2.1 ht1.2.2 ht1.1 ht2
    next h2 => exact tryEdge_bound h ht1.2.2 ht1.1 ht1.2.1 ht2

theorem flipWith_bound {pts : List (Pt3 K)} {t1 : Tri} {n : ℕ}
    (ht1 : t1.a < n ∧ t1.b < n ∧ t1.c < n) :
    ∀ (l : List Tri) (n1 : Tri) (l' : List Tri),
      flipWith pts t1 l = some (n1, l') → trisBound n l →
      (n1.a < n ∧ n1.b < n ∧ n1.c < n) ∧ trisBound n l' := by
  intro l
  induction l with
  | nil => intro n1 l' h _; simp [flipWith] at h
  | cons t2 ts ih =>
    intro n1 l' h hb
    unfold flipWith at h
    split at h
    next r1 r2 hfp =>
      cases h
      obtain ⟨hb1, hb2⟩ := flipPair_bound hfp ht1 (hb t2 (List.mem_cons_self _ _))
      refine ⟨hb1, ?_⟩
      intro t ht
      rcases List.mem_cons.mp ht with rfl | ht
      · exact hb2
      · exact hb t (List.mem_cons_of_mem _ ht)
    next =>
      split at h
      next =>
        cases h
        obtain ⟨hb1, hb2⟩ :=
          ih _ _ (by assumption) fun t ht => hb t (List.mem_cons_of_mem _ ht)
        refine ⟨hb1, ?_⟩
        intro t ht
        rcases List.mem_cons.mp ht with rfl | ht
        · exact hb t (List.mem_cons_self _ _)
        · exact hb2 t ht
      next => cases h

theorem flipScan_bound {pts : List (Pt3 K)} {n : ℕ} :
    ∀ (l l' : List Tri), flipScan pts l = some l' → trisBound n l → trisBound n l' := by
  intro l
  induction l with
  | nil => intro l' h _; simp [flipScan] at h
  | cons t ts ih =>
    intro l' h hb
    unfold flipScan at h
    split at h
    next n1 ts' hfw =>
      cases h
      obtain ⟨hb1, hb2⟩ :=
        flipWith_bound (hb t (List.mem_cons_self _ _)) ts n1 ts' hfw
          fun u hu => hb u (List.mem_cons_of_mem _ hu)
      intro u hu
      rcases List.mem_cons.mp hu with rfl | hu
      · exact hb1
      · exact hb2 u hu
    next =>
      split at h
      next ts' hfs =>
        cases h
        have hb2 := ih ts' hfs fun u hu => hb u (List.mem_cons_of_mem _ hu)
        intro u hu
        rcases List.mem_cons.mp hu with rfl | hu
        · exact hb u (List.mem_cons_self _ _)
        · exact hb2 u hu
      next => cases h

theorem restore_bound {pts : List (Pt3 K)} {n : ℕ} :
    ∀ (fuel : ℕ) (tris tris' : List Tri), restore pts fuel tris = some tris' →
      trisBound n tris → trisBound n tris' := by
  intro fuel
  induction fuel with
  | zero => intro tris tris' h _; simp [restore] at h
  | succ m ih =>
    intro tris tris' h hb
    unfold restore at h
    split at h
    · cases h; exact hb
    · split at h
      next tris'' hfs => exact ih tris'' tris' h (flipScan_bound tris tris'' hfs hb)
      next => cases h

theorem findTriSplit_bound {pts : List (Pt3 K)} {p : Pt3 K} {m n : ℕ} (hm : m < n) :
    ∀ (l l' : List Tri), findTriSplit pts p m l = some l' →
      trisBound n l → trisBound n l' := by
  intro l
  induction l with
  | nil => intro l' h _; simp [findTriSplit] at h
  | cons t ts ih =>
    intro l' h hb
    unfold findTriSplit at h
    split at h
    · cases h
      obtain ⟨h1, h2, h3⟩ := hb t (List.mem_cons_self _ _)
      intro u hu
      rcases List.mem_cons.mp hu with rfl | hu
      · exact ⟨h1, h2, hm⟩
      · rcases List.mem_cons.mp hu with rfl | hu
        · exact ⟨h2, h3, hm⟩
        · rcases List.mem_cons.mp hu with rfl | hu
          · exact ⟨h3, h1, hm⟩
          · exact hb u (List.mem_cons_of_mem _ hu)
    · split at h
      next ts' hfs =>
        cases h
        have hb2 := ih ts' hfs fun u hu => hb u (List.mem_cons_of_mem _ hu)
        intro u hu
        rcases List.mem_cons.mp hu with rfl | hu
        · exact hb u (List.mem_cons_self _ _)
        · exact hb2 u hu
      next => cases h

theorem mkFace_bound {pts : List (Pt3 K)} {i j k n : ℕ}
    (hi : i < n) (hj : j < n) (hk : k < n) :
    (mkFace pts i j k).a < n ∧ (mkFace pts i j k).b < n ∧ (mkFace pts i j k).c < n := by
  unfold mkFace
  split
  · exact ⟨hi, hj, hk⟩
  · exact ⟨hi, hk, hj⟩

theorem seedTris_bound {pts : List (Pt3 K)} {n : ℕ} (hn : 4 ≤ n) :
    trisBound n (seedTris pts) := by
  intro t ht
  unfold seedTris at ht
  rcases List.mem_cons.mp ht with rfl | ht
  · exact mkFace_bound (by omega) (by omega) (by omega)
  · rcases List.mem_cons.mp ht with rfl | ht
    · exact mkFace_bound (by omega) (by omega) (by omega)
    · rcases List.mem_cons.mp ht with rfl | ht
      · exact mkFace_bound (by omega) (by omega) (by omega)
      · rcases List.mem_cons.mp ht with rfl | ht
        · exact mkFace_bound (by omega) (by omega) (by omega)
        · cases ht

theorem finalize_bound {tol : K} {pts : List (Pt3 K)} {tris : List Tri} {st : TriState K}
    {n : ℕ} (h : finalize tol pts tris = .ok st) (hb : trisBound n tris) :
    trisBound n st.tris := by
  unfold finalize at h
  split at h
  next tris' hr =>
    split at h
    · cases h
      exact restore_bound _ tris tris' hr hb
    · cases h
  next => cases h

theorem insert_bound {st : TriState K} {p : Pt3 K} {st' : TriState K}
    (hb : trisBound st.pts.length st.tris) (h : insert st p = .ok st') :
    trisBound st'.pts.length st'.tris := by
  have hpts := (insert_ok_pts h).1
  have hlen : st'.pts.length = st.pts.length + 1 := by rw [hpts]; simp
  unfold insert at h
  split at h
  · cases h
  · split at h
    · split at h
      next q0 q1 q2 hq =>
        split at h
        · cases h
        · have h3 : st.pts.length = 3 := by rw [hq]; rfl
          exact finalize_bound h (seedTris_bound (by omega))
      next =>
        split at h
        · cases h
          intro t ht
          cases ht
        · cases h
    · split at h
      next tris' hfs =>
        have hb' := findTriSplit_bound (show st.pts.length < st.pts.length + 1 by omega)
          st.tris tris' hfs (trisBound_mono (by omega) hb)
        have := finalize_bound h hb'
        rw [hlen]
        exact this
      next => cases h

theorem buildMesh_bound {tol : K} {ps : List (Pt3 K)} {st : TriState K}
    (h : buildMesh tol ps = some st) : trisBound st.pts.length st.tris := by
  obtain ⟨hb, -⟩ := buildMesh_ok h
  exact buildList_inv (fun m => trisBound m.pts.length m.tris)
    (fun m p m' hp hins => insert_bound hp hins) ps ⟨tol, [], []⟩ st
    (fun t ht => by cases ht) hb

theorem nbrAcc_lt {n v : ℕ} :
    ∀ tris : List Tri, trisBound n tris → ∀ u ∈ nbrAcc v tris, u < n := by
  intro tris
  induction tris with
  | nil => intro _ u hu; cases hu
  | cons t ts ih =>
    intro hb u hu
    have hbt := hb t (List.mem_cons_self _ _)
    have hbts : trisBound n ts := fun r hr => hb r (List.mem_cons_of_mem _ hr)
    unfold nbrAcc at hu
    split at hu
    · rcases List.mem_cons.mp hu with rfl | hu
      · exact hbt.2.1
      · rcases List.mem_cons.mp hu with rfl | hu
        · exact hbt.2.2
        · exact ih hbts u hu
    · split at hu
      · rcases List.mem_cons.mp hu with rfl | hu
        · exact hbt.2.2
        · rcases List.mem_cons.mp hu with rfl | hu
          · exact hbt.1
          · exact ih hbts u hu
      · split at hu
        · rcases List.mem_cons.mp hu with rfl | hu
          · exact hbt.1
          · rcases List.mem_cons.mp hu with rfl | hu
            · exact hbt.2.1
            · exact ih hbts u hu
        · exact ih hbts u hu

theorem neighborsOf_lt {n v : ℕ} {tris : List Tri} (hb : trisBound n tris) :
    ∀ u ∈ neighborsOf tris v, u < n := by
  intro u hu
  exact nbrAcc_lt tris hb u (List.mem_dedup.mp hu)

/-! ### The derivative estimator on constant fields -/

theorem gradAccum_rhs_zero (pts : List (Pt3 F)) (f : List F) (pv : Pt3 F) (fv : F) :
    ∀ js : List ℕ, (∀ j ∈ js, f.getD j 0 = fv) →
      (gradAccum pts f pv fv js).2 = ⟨0, 0, 0⟩ := by
  intro js
  induction js with
  | nil => intro _; rfl
  | cons j js ih =>
    intro hj
    have htail := ih fun u hu => hj u (List.mem_cons_of_mem _ hu)
    unfold gradAccum
    rcases hga : gradAccum pts f pv fv js with ⟨acc, r⟩
    rw [hga] at htail
    dsimp only at htail ⊢
    have hdf : f.getD j 0 - fv = 0 := by
      rw [hj j (List.mem_cons_self _ _)]
      ring
    rw [hdf, htail]
    simp

theorem solveSym3_zero (A : Sym3 F) : solveSym3 A ⟨0, 0, 0⟩ = ⟨0, 0, 0⟩ := by
  unfold solveSym3 det3
  dsimp only
  norm_num

theorem getD_replicate_of_lt {c : F} {n v : ℕ} (hv : v < n) :
    (List.replicate n c).getD v 0 = c := by
  rw [List.getD_eq_getElem _ _ (by simpa using hv)]
  simp

/-- On a field that is constant across the vertex and its neighbors, the
weighted least-squares gradient estimate vanishes: the right-hand side of
the normal system is identically zero. -/
theorem estimateAt_const {st : TriState F} {c : F}
    (hb : trisBound st.pts.length st.tris) {v : ℕ} (hv : v < st.pts.length) :
    estimateAt st (List.replicate st.pts.length c) v = ⟨0, 0, 0⟩ := by
  unfold estimateAt
  have hrhs := gradAccum_rhs_zero st.pts (List.replicate st.pts.length c)
    (getPt st.pts v) ((List.replicate st.pts.length c).getD v 0)
    (neighborsOf st.tris v)
    (fun j hj => by
      rw [getD_replicate_of_lt (neighborsOf_lt hb j hj), getD_replicate_of_lt hv])
  rcases hga : gradAccum st.pts (List.replicate st.pts.length c) (getPt st.pts v)
      ((List.replicate st.pts.length c).getD v 0) (neighborsOf st.tris v) with ⟨acc, r⟩
  rw [hga] at hrhs
  dsimp only at hrhs ⊢
  rw [hrhs]
  exact solveSym3_zero acc

/-! ### Constant fields through the evaluator -/

theorem dot3_zero_left (u : Pt3 F) : dot3 (⟨0, 0, 0⟩ : Pt3 F) u = 0 := by
  simp [dot3]

theorem det3_cyc (a b c : Pt3 K) : det3 a b c = det3 c a b := by
  simp only [det3]
  ring

theorem edgeBlend_const {st : TriState F} {f : List F} {g : List (Pt3 F)}
    {ten c : F} {i j : ℕ} {p : Pt3 F}
    (hfi : f.getD i 0 = c) (hfj : f.getD j 0 = c)
    (hgi : g.getD i ⟨0, 0, 0⟩ = ⟨0, 0, 0⟩) (hgj : g.getD j ⟨0, 0, 0⟩ = ⟨0, 0, 0⟩) :
    edgeBlend st f g ten i j p = c := by
  unfold edgeBlend
  dsimp only
  rw [hfi, hfj, hgi, hgj]
  simp only [dot3_zero_left, mul_zero, add_zero, zero_add]
  unfold h00 h01
  ring

theorem triBlend_const {st : TriState F} {f : List F} {g : List (Pt3 F)}
    {ten c : F} {t : Tri} {p : Pt3 F} (hc : containsP st.pts t p)
    (hfa : f.getD t.a 0 = c) (hfb : f.getD t.b 0 = c) (hfc : f.getD t.c 0 = c)
    (hga : g.getD t.a ⟨0, 0, 0⟩ = ⟨0, 0, 0⟩) (hgb : g.getD t.b ⟨0, 0, 0⟩ = ⟨0, 0, 0⟩)
    (hgc : g.getD t.c ⟨0, 0, 0⟩ = ⟨0, 0, 0⟩) :
    triBlend st f g ten t p = c := by
  obtain ⟨h1, h2, h3, h4⟩ := hc
  have hs : 0 < det3 p (getPt st.pts t.b) (getPt st.pts t.c) +
      det3 (getPt st.pts t.a) p (getPt st.pts t.c) +
      det3 (getPt st.pts t.a) (getPt st.pts t.b) p := by
    have e1 : det3 p (getPt st.pts t.b) (getPt st.pts t.c) =
        det3 (getPt st.pts t.b) (getPt st.pts t.c) p := by
      rw [det3_cyc, det3_cyc]
    have e2 : det3 (getPt st.pts t.a) p (getPt st.pts t.c) =
        det3 (getPt st.pts t.c) (getPt st.pts t.a) p := by
      rw [det3_cyc]
    rw [e1, e2]
    rcases h4 with h4 | h4 | h4 <;> linarith
  unfold triBlend
  dsimp only
  rw [hfa, hfb, hfc, hga, hgb, hgc]
  simp only [dot3_zero_left, mul_zero, add_zero, zero_add]
  field_simp
  ring

theorem findTri_mem {pts : List (Pt3 K)} {p : Pt3 K} :
    ∀ (l : List Tri) (t : Tri), findTri pts p l = some t →
      t ∈ l ∧ containsP pts t p := by
  intro l
  induction l with
  | nil => intro t h; simp [findTri] at h
  | cons u us ih =>
    intro t h
    unfold findTri at h
    split at h
    next hc =>
      cases h
      exact ⟨List.mem_cons_self _ _, hc⟩
    next =>
      obtain ⟨hm, hc⟩ := ih t h
      exact ⟨List.mem_cons_of_mem _ hm, hc⟩

theorem locate_cases {st : TriState F} {p : Pt3 F} {r : LocRes}
    (h : locate st p = some r) :
    (∃ i, r = .vertex i ∧ i < st.pts.length ∧ getPt st.pts i = p) ∨
    (∃ t, t ∈ st.tris ∧ containsP st.pts t p ∧
      (r = .onEdge t.a t.b ∨ r = .onEdge t.b t.c ∨ r = .onEdge t.c t.a ∨ r = .inTri t)) := by
  unfold locate at h
  split at h
  next i hsv =>
    cases h
    obtain ⟨h1, h2⟩ := scanVertex_some st.pts i hsv
    exact Or.inl ⟨i, rfl, h1, h2⟩
  next =>
    split at h
    next t hft =>
      obtain ⟨hm, hc⟩ := findTri_mem st.tris t hft
      refine Or.inr ⟨t, hm, hc, ?_⟩
      split at h
      · cases h; exact Or.inl rfl
      · split at h
        · cases h; exact Or.inr (Or.inl rfl)
        · split at h
          · cases h; exact Or.inr (Or.inr (Or.inl rfl))
          · cases h; exact Or.inr (Or.inr (Or.inr rfl))
    next => cases h

theorem map_range_getD {α : Type} {n v : ℕ} (hv : v < n) (f : ℕ → α) (d : α) :
    ((List.range n).map f).getD v d = f v := by
  rw [List.getD_eq_getD_get?, List.get?_map, List.get?_range hv]
  rfl

theorem estimateAll_getD_const {st : TriState F} {c : F}
    (hb : trisBound st.pts.length st.tris) {i : ℕ} (hi : i < st.pts.length) :
    (estimateAll st (List.replicate st.pts.length c)).getD i ⟨0, 0, 0⟩ = ⟨0, 0, 0⟩ := by
  unfold estimateAll
  rw [map_range_getD hi]
  exact estimateAt_const hb hi

/-- C5: evaluating the field that is a non-zero constant `c` at every
vertex of a built mesh returns exactly `c` at every locatable query point,
under any tension, and the estimated gradient of that field is the zero
vector at every vertex. -/
theorem C5_constant_field :
    (∀ (tol : F) (ps : List (Pt3 F)) (st : TriState F) (c ten : F) (p : Pt3 F) (r : LocRes),
        buildMesh tol ps = some st → c ≠ 0 → locate st p = some r →
        evaluate st (List.replicate st.pts.length c)
          (estimateAll st (List.replicate st.pts.length c)) ten p = some c) ∧
    (∀ (tol : F) (ps : List (Pt3 F)) (st : TriState F) (c : F) (v : ℕ),
        buildMesh tol ps = some st → c ≠ 0 → v < st.pts.length →
        estimateAt st (List.replicate st.pts.length c) v = ⟨0, 0, 0⟩) := by
  constructor
  · intro tol ps st c ten p r hbuild _ hloc
    have hb := buildMesh_bound hbuild
    unfold evaluate
    rw [hloc]
    rcases locate_cases hloc with ⟨i, rfl, hi, -⟩ | ⟨t, hmem, hc, hr⟩
    · dsimp only
      rw [getD_replicate_of_lt hi]
    · obtain ⟨hta, htb, htc⟩ := hb t hmem
      rcases hr with rfl | rfl | rfl | rfl
      · dsimp only
        rw [edgeBlend_const (getD_replicate_of_lt hta) (getD_replicate_of_lt htb)
          (estimateAll_getD_const hb hta) (estimateAll_getD_const hb htb)]
      · dsimp only
        rw [edgeBlend_const (getD_replicate_of_lt htb) (getD_replicate_of_lt htc)
          (estimateAll_getD_const hb htb) (estimateAll_getD_const hb htc)]
      · dsimp only
        rw [edgeBlend_const (getD_replicate_of_lt htc) (getD_replicate_of_lt hta)
          (estimateAll_getD_const hb htc) (estimateAll_getD_const hb hta)]
      · dsimp only
        rw [triBlend_const hc (getD_replicate_of_lt hta) (getD_replicate_of_lt htb)
          (getD_replicate_of_lt htc) (estimateAll_getD_const hb hta)
          (estimateAll_getD_const hb htb) (estimateAll_getD_const hb htc)]
  · intro tol ps st c v hbuild _ hv
    exact estimateAt_const (buildMesh_bound hbuild) hv

/-- Witness for C5: the rational tetrahedron mesh (built with scale factor
1), the constant field 5, tension 3 and a query at the first vertex. -/
theorem C5_constant_field_witness :
    evaluate (⟨0, [⟨1, 0, 0⟩, ⟨0, 1, 0⟩, ⟨0, 0, 1⟩, ⟨-1, -1, -1⟩],
        [⟨0, 1, 2⟩, ⟨0, 3, 1⟩, ⟨0, 2, 3⟩, ⟨1, 3, 2⟩]⟩ : TriState ℚ)
      (List.replicate
        (⟨0, [⟨1, 0, 0⟩, ⟨0, 1, 0⟩, ⟨0, 0, 1⟩, ⟨-1, -1, -1⟩],
          [⟨0, 1, 2⟩, ⟨0, 3, 1⟩, ⟨0, 2, 3⟩, ⟨1, 3, 2⟩]⟩ : TriState ℚ).pts.length 5)
      (estimateAll (⟨0, [⟨1, 0, 0⟩, ⟨0, 1, 0⟩, ⟨0, 0, 1⟩, ⟨-1, -1, -1⟩],
          [⟨0, 1, 2⟩, ⟨0, 3, 1⟩, ⟨0, 2, 3⟩, ⟨1, 3, 2⟩]⟩ : TriState ℚ)
        (List.replicate
          (⟨0, [⟨1, 0, 0⟩, ⟨0, 1, 0⟩, ⟨0, 0, 1⟩, ⟨-1, -1, -1⟩],
            [⟨0, 1, 2⟩, ⟨0, 3, 1⟩, ⟨0, 2, 3⟩, ⟨1, 3, 2⟩]⟩ : TriState ℚ).pts.length 5))
      3 ⟨1, 0, 0⟩ = some 5 :=
  C5_constant_field.1 0 [⟨1, 0, 0⟩, ⟨0, 1, 0⟩, ⟨0, 0, 1⟩, ⟨-1, -1, -1⟩] _ 5 3 ⟨1, 0, 0⟩
    (.vertex 0) (tetra_build 1 one_pos) (by norm_num) (by decide)

/-! ### The smoothing solver -/

theorem smoothLoop_spec (st : TriState F) (f w : List F) (sm smtol gstol : F) :
    ∀ (fuel : ℕ) (fs0 : List F),
      ((smoothLoop st f w sm smtol gstol fuel fs0).2 = 0 ∨
        (smoothLoop st f w sm smtol gstol fuel fs0).2 = 1) ∧
      ((smoothLoop st f w sm smtol gstol fuel fs0).2 = 0 →
        sm * (1 - smtol) ≤ q2 w f (smoothLoop st f w sm smtol gstol fuel fs0).1 ∧
        q2 w f (smoothLoop st f w sm smtol gstol fuel fs0).1 ≤ sm * (1 + smtol)) := by
  intro fuel
  induction fuel with
  | zero =>
    intro fs0
    refine ⟨Or.inr rfl, ?_⟩
    intro h
    cases h
  | succ m ih =>
    intro fs0
    unfold smoothLoop
    dsimp only
    by_cases hcv :
        convergedB st f w sm smtol gstol fs0 (smoothStep st f w fs0 sm) = true
    · rw [if_pos hcv]
      refine ⟨Or.inl rfl, fun _ => ?_⟩
      unfold convergedB at hcv
      simp only [Bool.and_eq_true, decide_eq_true_eq] at hcv
      exact ⟨hcv.1.1, hcv.1.2⟩
    · rw [if_neg hcv]
      exact ih (smoothStep st f w fs0 sm)

/-- C8: for every field, strictly positive weights, positive `sm`, and any
tolerances, the smoothing solver returns a result without raising: the
error indicator of the returned triple is 0 (converged, and then the `Q2`
statistic of the returned field lies in the prescribed band) or 1
(non-convergence within the bounded iteration count, reported through the
indicator value). -/
theorem C8_smoothing_reports :
    ∀ (st : TriState F) (f w : List F) (sm smtol gstol : F),
      (∀ x ∈ w, 0 < x) → 0 < sm →
      ((smoothing st f w sm smtol gstol).2.2 = 0 ∨
        (smoothing st f w sm smtol gstol).2.2 = 1) ∧
      ((smoothing st f w sm smtol gstol).2.2 = 0 →
        sm * (1 - smtol) ≤ q2 w f (smoothing st f w sm smtol gstol).1 ∧
        q2 w f (smoothing st f w sm smtol gstol).1 ≤ sm * (1 + smtol)) := by
  intro st f w sm smtol gstol _ _
  unfold smoothing
  exact smoothLoop_spec st f w sm smtol gstol smoothIterBound f

/-- Witness for C8: the smoothing call of the notebook shape on the
rational tetrahedron mesh with unit weights. -/
theorem C8_smoothing_reports_witness :
    ((smoothing (⟨0, [⟨1, 0, 0⟩, ⟨0, 1, 0⟩, ⟨0, 0, 1⟩, ⟨-1, -1, -1⟩],
          [⟨0, 1, 2⟩, ⟨0, 3, 1⟩, ⟨0, 2, 3⟩, ⟨1, 3, 2⟩]⟩ : TriState ℚ)
        [1, 2, 3, 4] [1, 1, 1, 1] 10 (1 / 10) (1 / 100)).2.2 = 0 ∨
      (smoothing (⟨0, [⟨1, 0, 0⟩, ⟨0, 1, 0⟩, ⟨0, 0, 1⟩, ⟨-1, -1, -1⟩],
          [⟨0, 1, 2⟩, ⟨0, 3, 1⟩, ⟨0, 2, 3⟩, ⟨1, 3, 2⟩]⟩ : TriState ℚ)
        [1, 2, 3, 4] [1, 1, 1, 1] 10 (1 / 10) (1 / 100)).2.2 = 1) ∧
    ((smoothing (⟨0, [⟨1, 0, 0⟩, ⟨0, 1, 0⟩, ⟨0, 0, 1⟩, ⟨-1, -1, -1⟩],
          [⟨0, 1, 2⟩, ⟨0, 3, 1⟩, ⟨0, 2, 3⟩, ⟨1, 3, 2⟩]⟩ : TriState ℚ)
        [1, 2, 3, 4] [1, 1, 1, 1] 10 (1 / 10) (1 / 100)).2.2 = 0 →
      10 * (1 - 1 / 10) ≤
        q2 [1, 1, 1, 1] [1, 2, 3, 4]
          (smoothing (⟨0, [⟨1, 0, 0⟩, ⟨0, 1, 0⟩, ⟨0, 0, 1⟩, ⟨-1, -1, -1⟩],
              [⟨0, 1, 2⟩, ⟨0, 3, 1⟩, ⟨0, 2, 3⟩, ⟨1, 3, 2⟩]⟩ : TriState ℚ)
            [1, 2, 3, 4] [1, 1, 1, 1] 10 (1 / 10) (1 / 100)).1 ∧
      q2 [1, 1, 1, 1] [1, 2, 3, 4]
          (smoothing (⟨0, [⟨1, 0, 0⟩, ⟨0, 1, 0⟩, ⟨0, 0, 1⟩, ⟨-1, -1, -1⟩],
              [⟨0, 1, 2⟩, ⟨0, 3, 1⟩, ⟨0, 2, 3⟩, ⟨1, 3, 2⟩]⟩ : TriState ℚ)
            [1, 2, 3, 4] [1, 1, 1, 1] 10 (1 / 10) (1 / 100)).1 ≤
        10 * (1 + 1 / 10)) :=
  C8_smoothing_reports _ [1, 2, 3, 4] [1, 1, 1, 1] 10 (1 / 10) (1 / 100)
    (by
      intro x hx
      simp only [List.mem_cons, List.not_mem_nil, or_false] at hx
      rcases hx with rfl | rfl | rfl | rfl <;> norm_num)
    (by norm_num)

/-- C9: the gradient component of the smoothing result is returned as the
triple of Cartesian derivative arrays `(dfdx, dfdy, dfdz)` — the x, y and z
components of the per-vertex Cartesian gradient of the smoothed field —
each of the field's length `n`. -/
theorem C9_smoothing_gradient_shape :
    ∀ (st : TriState F) (f w : List F) (sm smtol gstol : F) (n : ℕ),
      st.pts.length = n → f.length = n →
      ∃ fs gx gy gz err,
        smoothing st f w sm smtol gstol = (fs, (gx, gy, gz), err) ∧
        gx.length = n ∧ gy.length = n ∧ gz.length = n ∧
        gx = (gradient_xyz st fs).map (fun g => g.x) ∧
        gy = (gradient_xyz st fs).map (fun g => g.y) ∧
        gz = (gradient_xyz st fs).map (fun g => g.z) := by
  intro st f w sm smtol gstol n hn _
  refine ⟨(smoothLoop st f w sm smtol gstol smoothIterBound f).1, _, _, _,
    (smoothLoop st f w sm smtol gstol smoothIterBound f).2, rfl, ?_, ?_, ?_, rfl, rfl, rfl⟩ <;>
    simp [estimateAll, hn]

/-- Witness for C9: the shape statement on the rational tetrahedron mesh
with a four-entry field. -/
theorem C9_smoothing_gradient_shape_witness :
    ∃ fs gx gy gz err,
      smoothing (⟨0, [⟨1, 0, 0⟩, ⟨0, 1, 0⟩, ⟨0, 0, 1⟩, ⟨-1, -1, -1⟩],
          [⟨0, 1, 2⟩, ⟨0, 3, 1⟩, ⟨0, 2, 3⟩, ⟨1, 3, 2⟩]⟩ : TriState ℚ)
        [1, 2, 3, 4] [1, 1, 1, 1] 10 (1 / 10) (1 / 100) = (fs, (gx, gy, gz), err) ∧
      gx.length = 4 ∧ gy.length = 4 ∧ gz.length = 4 ∧
      gx = (gradient_xyz (⟨0, [⟨1, 0, 0⟩, ⟨0, 1, 0⟩, ⟨0, 0, 1⟩, ⟨-1, -1, -1⟩],
          [⟨0, 1, 2⟩, ⟨0, 3, 1⟩, ⟨0, 2, 3⟩, ⟨1, 3, 2⟩]⟩ : TriState ℚ) fs).map
        (fun g => g.x) ∧
      gy = (gradient_xyz (⟨0, [⟨1, 0, 0⟩, ⟨0, 1, 0⟩, ⟨0, 0, 1⟩, ⟨-1, -1, -1⟩],
          [⟨0, 1, 2⟩, ⟨0, 3, 1⟩, ⟨0, 2, 3⟩, ⟨1, 3, 2⟩]⟩ : TriState ℚ) fs).map
        (fun g => g.y) ∧
      gz = (gradient_xyz (⟨0, [⟨1, 0, 0⟩, ⟨0, 1, 0⟩, ⟨0, 0, 1⟩, ⟨-1, -1, -1⟩],
          [⟨0, 1, 2⟩, ⟨0, 3, 1⟩, ⟨0, 2, 3⟩, ⟨1, 3, 2⟩]⟩ : TriState ℚ) fs).map
        (fun g => g.z) :=
  C9_smoothing_gradient_shape _ [1, 2, 3, 4] [1, 1, 1, 1] 10 (1 / 10) (1 / 100) 4 rfl rfl

/-! ### The lon/lat form of the gradient -/

theorem llConsistentL_spec :
    ∀ (ps : List (Pt3 K)) (as : List (AngV K)), llConsistentL ps as →
      ∀ v < ps.length,
        getPt ps v = angXyz (as.getD v ⟨1, 0, 1, 0⟩) ∧
        (as.getD v ⟨1, 0, 1, 0⟩).clon ^ 2 + (as.getD v ⟨1, 0, 1, 0⟩).slon ^ 2 = 1 ∧
        (as.getD v ⟨1, 0, 1, 0⟩).clat ^ 2 + (as.getD v ⟨1, 0, 1, 0⟩).slat ^ 2 = 1 := by
  intro ps
  induction ps with
  | nil => intro as _ v hv; simp at hv
  | cons p ps ih =>
    intro as hcons v hv
    cases as with
    | nil => cases hcons
    | cons a as =>
      obtain ⟨⟨hp, hlon, hlat⟩, htail⟩ := hcons
      cases v with
      | zero => exact ⟨hp, hlon, hlat⟩
      | succ u => exact ih as htail u (by simpa using hv)

/-- C10: `gradient_lonlat` and `gradient_xyz` are equivalent
representations of the per-vertex gradient — at every vertex whose angular
data is consistent with its Cartesian coordinates and whose latitude is
away from the poles (positive cosine of latitude), the lon/lat derivative
pair equals the tangent-plane transformation of the Cartesian derivative
triple. -/
theorem C10_lonlat_equiv :
    ∀ (m : LLMesh F) (f : List F) (v : ℕ),
      llConsistentL m.st.pts m.ang → v < m.st.pts.length →
      0 < (m.ang.getD v ⟨1, 0, 1, 0⟩).clat →
      (gradient_lonlat m f).getD v (0, 0) =
        lonlatOfXyz (getPt m.st.pts v) ((gradient_xyz m.st f).getD v ⟨0, 0, 0⟩)
          ((m.ang.getD v ⟨1, 0, 1, 0⟩).clat) := by
  intro m f v hcons hv hpole
  obtain ⟨hp, hlon, -⟩ := llConsistentL_spec _ _ hcons v hv
  have hc : (m.ang.getD v ⟨1, 0, 1, 0⟩).clat ≠ 0 := ne_of_gt hpole
  unfold gradient_lonlat lonlatOfXyz gradient_xyz estimateAll
  rw [map_range_getD hv, map_range_getD hv, hp]
  unfold angXyz
  dsimp only
  have hxy : ((m.ang.getD v ⟨1, 0, 1, 0⟩).clat * (m.ang.getD v ⟨1, 0, 1, 0⟩).clon) ^ 2 +
      ((m.ang.getD v ⟨1, 0, 1, 0⟩).clat * (m.ang.getD v ⟨1, 0, 1, 0⟩).slon) ^ 2 =
      (m.ang.getD v ⟨1, 0, 1, 0⟩).clat ^ 2 := by
    linear_combination (m.ang.getD v ⟨1, 0, 1, 0⟩).clat ^ 2 * hlon
  rw [hxy]
  simp only [Prod.mk.injEq]
  set a := m.ang.getD v ⟨1, 0, 1, 0⟩
  set g := estimateAt m.st f v
  constructor
  · field_simp
    ring
  · field_simp
    ring

/-- Witness for C10: a rational three-vertex mesh with exact angular data,
queried at the equatorial vertex `(1,0,0)`. -/
theorem C10_lonlat_equiv_witness :
    (gradient_lonlat
        (⟨⟨0, [⟨1, 0, 0⟩, ⟨0, 1, 0⟩, ⟨0, 0, 1⟩], []⟩,
          [⟨1, 0, 1, 0⟩, ⟨0, 1, 1, 0⟩, ⟨1, 0, 0, 1⟩]⟩ : LLMesh ℚ) [1, 2, 3]).getD 0 (0, 0) =
      lonlatOfXyz (getPt [⟨1, 0, 0⟩, ⟨0, 1, 0⟩, ⟨0, 0, 1⟩] 0)
        ((gradient_xyz (⟨0, [⟨1, 0, 0⟩, ⟨0, 1, 0⟩, ⟨0, 0, 1⟩], []⟩ : TriState ℚ)
            [1, 2, 3]).getD 0 ⟨0, 0, 0⟩)
        ((([⟨1, 0, 1, 0⟩, ⟨0, 1, 1, 0⟩, ⟨1, 0, 0, 1⟩] : List (AngV ℚ)).getD 0
            ⟨1, 0, 1, 0⟩).clat) :=
  C10_lonlat_equiv _ [1, 2, 3] 0 (by norm_num [llConsistentL, angXyz]) (by decide)
    (by norm_num)

end Stripy
